import Mathlib

/-!
Verification of the segmented, incremental Sieve of Eratosthenes library
(`Primes` in `src/lib.rs` of benjkr/primes).

Modelling conventions:
* the `u64` values of the source are modelled as natural numbers; this is
  exact below `2 ^ 64` (overflow wrapping, which the source would only hit
  after an astronomically long run, is not modelled);
* the `f64` arithmetic used in `populate_next_batch`
  (`(offset as f64 / prime as f64).ceil() as u64`) is modelled exactly:
  `roundF64` rounds a rational to 53 significant bits with round half to
  even, which is the IEEE-754 `binary64` behaviour for every finite normal
  value the program can produce (no overflow/subnormals in this range);
* an unchecked slice index that the source performs without a bounds guard
  (`self.inner_slice[0] = false; self.inner_slice[1] = false;` in
  `populate_first_batch`) is modelled strictly: `Option.none` models the
  Rust panic.  The sieving loops themselves only write behind explicit
  `< size` guards, so they are modelled as total functions;
* `Rc<RefCell<HashSet<u64>>>` is a single-threaded shared handle to a hash
  set; its value is modelled as a `Finset ℕ`.
-/

namespace PrimesLib

/-- `const MB: u64 = 1_048_576;` -/
def MB : ℕ := 1048576

/-- `const BATCH_SIZE: u64 = 10 * MB;` -/
def BATCH_SIZE : ℕ := 10 * MB

/-- Round half to even of the fraction `A / B` (for `B ≠ 0`): the integer
nearest to `A / B`, ties going to the even neighbour.  Building block of the
IEEE-754 rounding model. -/
def rhe (A B : ℕ) : ℕ :=
  if 2 * (A % B) < B then A / B
  else if B < 2 * (A % B) then A / B + 1
  else if (A / B) % 2 = 0 then A / B else A / B + 1

/-- Structurally recursive base-2 logarithm (fuelled so that the kernel can
evaluate it; `fuel = n` always suffices since `n < 2 ^ n`). -/
def natLog2Go : ℕ → ℕ → ℕ
  | 0, _ => 0
  | fuel + 1, n => if 2 ≤ n then natLog2Go fuel (n / 2) + 1 else 0

/-- Base-2 logarithm: the unique `e` with `2 ^ e ≤ n < 2 ^ (e + 1)` for
`n ≥ 1`. -/
def natLog2 (n : ℕ) : ℕ := natLog2Go n n

/-- IEEE-754 `binary64` rounding of a positive rational: round to 53
significant bits, half to even.  `n * 2 ^ s / d` is scaled so that its
integer part has at least 53 bits, `e` recovers the binade of `q`, and the
significand is rounded at granularity `2 ^ (e - 52) / 2 ^ s`.  This is the
exact value of `x as f64` (for integer `x`) and of a correctly rounded
`f64` division, for all magnitudes reachable by the program. -/
def roundF64 (q : ℚ) : ℚ :=
  if q ≤ 0 then 0
  else
    let n := q.num.toNat
    let d := q.den
    let s := 53 + natLog2 d
    let e := natLog2 (n * 2 ^ s / d)
    ((2 : ℚ) ^ (e - 52) * rhe (n * 2 ^ s) (d * 2 ^ (e - 52))) / 2 ^ s

/-- `f64::ceil` followed by the `as u64` cast, for a nonnegative finite
value (the only case the source reaches): the ceiling of a finite `f64` is
exactly representable, and the cast truncates an in-range nonnegative
integer. -/
def ratCeilNat (q : ℚ) : ℕ := ((q.num + (q.den : ℤ) - 1) / (q.den : ℤ)).toNat

/-- `let mul = (self.batch.offset as f64 / *prime as f64).ceil() as u64;`
from `Primes::populate_next_batch` (src/lib.rs:121). -/
def mulFactor (offset p : ℕ) : ℕ :=
  ratCeilNat (roundF64 (roundF64 (offset : ℚ) / roundF64 (p : ℚ)))

/-- `struct Batch { current: u64, size: u64, offset: u64 }` (src/lib.rs:8). -/
structure Batch where
  current : ℕ
  size : ℕ
  offset : ℕ
deriving DecidableEq, Repr

/-- `Batch::new` (src/lib.rs:15). -/
def Batch.new (batch_size : ℕ) : Batch := ⟨0, batch_size, 0⟩

/-- `Batch::calculate_offset` (src/lib.rs:23). -/
def Batch.calculate_offset (b : Batch) : Batch :=
  { b with offset := b.current * b.size }

/-- `Batch::set_batch` (src/lib.rs:27). -/
def Batch.set_batch (b : Batch) (k : ℕ) : Batch :=
  Batch.calculate_offset { b with current := k }

/-- `Batch::update_batch` (src/lib.rs:32). -/
def Batch.update_batch (b : Batch) (f : ℕ → ℕ) : Batch :=
  Batch.calculate_offset { b with current := f b.current }

/-- `pub struct Primes` (src/lib.rs:50): the reusable marker slice
(`Box<Vec<bool>>`), the batch tracker, the fast-membership view
(`Rc<RefCell<HashSet<u64>>>`) and the ordered view (`Vec<u64>`). -/
structure Primes where
  inner_slice : List Bool
  batch : Batch
  primes_found : Finset ℕ
  primes_ordered : List ℕ
deriving DecidableEq

/-- A bounds-checked write: `none` models the Rust panic on an
out-of-bounds index. -/
def setStrict (l : List Bool) (i : ℕ) (v : Bool) : Option (List Bool) :=
  if i < l.length then some (l.set i v) else none

/-- The body of the inner marking loop shared by both sieving passes,
fuelled so that the kernel can evaluate it. -/
def markFromGo (off bound p : ℕ) : ℕ → List Bool → ℕ → List Bool
  | 0, l, _ => l
  | fuel + 1, l, tmp =>
    if tmp < bound then markFromGo off bound p fuel (l.set (tmp - off) false) (tmp + p)
    else l

/-- The inner marking loop shared by both sieving passes:
`while tmp < bound { slice[tmp - off] = false; tmp += p; }`.
`bound - tmp` steps of fuel always suffice when `p ≥ 1` (`tmp` grows by at
least one per step); the source never reaches `p = 0` (the store holds
primes, which are `≥ 2`) and would panic there rather than loop.  `tmp - off`
is natural-number subtraction; in Rust a start below `off` would be a `u64`
underflow panic, while here it truncates — all marking theorems therefore
carry the hypothesis `off ≤ tmp`, which the exactness results establish for
every start value the program computes in the modelled range. -/
def markFrom (l : List Bool) (off bound p tmp : ℕ) : List Bool :=
  markFromGo off bound p (bound - tmp) l tmp

/-- The `for i in 2..len` loop of `Primes::populate_first_batch`
(src/lib.rs:85-94): for each still-unmarked `i`, mark `2*i, 3*i, ...`
below `size`. -/
def first_batch_loop (slice : List Bool) (size : ℕ) : List Bool :=
  (List.range' 2 (size - 2)).foldl
    (fun sl i => if sl.getD i false then markFrom sl 0 size i (i + i) else sl)
    slice

/-- `Primes::populate_first_batch` (src/lib.rs:82): the two unchecked
writes to indices 0 and 1, then the from-scratch sieve.  `none` models the
panic on `batch_size < 2`. -/
def populate_first_batch (s : Primes) : Option Primes :=
  (setStrict s.inner_slice 0 false).bind fun l0 =>
    (setStrict l0 1 false).bind fun l1 =>
      some { s with inner_slice := first_batch_loop l1 s.batch.size }

/-- The `enumerate().filter_map(...)` collection of `Primes::save_primes`
(src/lib.rs:98-109), written as an index-threading recursion: position `i`
of the slice contributes the value `i + offset` when still marked. -/
def collectFrom (slice : List Bool) (i off : ℕ) : List ℕ :=
  match slice with
  | [] => []
  | b :: rest =>
    if b then (i + off) :: collectFrom rest (i + 1) off
    else collectFrom rest (i + 1) off

/-- The list of values collected by `Primes::save_primes`. -/
def collectPrimes (slice : List Bool) (off : ℕ) : List ℕ := collectFrom slice 0 off

/-- `Primes::save_primes` (src/lib.rs:97): fold the still-marked positions
into both views of the Prime Store in one operation. -/
def save_primes (s : Primes) : Primes :=
  let primes := collectPrimes s.inner_slice s.batch.offset
  { s with
      primes_found := s.primes_found ∪ primes.toFinset
      primes_ordered := s.primes_ordered ++ primes }

/-- `Primes::with_batch_size` (src/lib.rs:62): build the state, sieve
batch 0, record its primes.  `none` models the construction panic. -/
def with_batch_size (batch_size : ℕ) : Option Primes :=
  (populate_first_batch
      { inner_slice := List.replicate batch_size true
        batch := Batch.new batch_size
        primes_found := ∅
        primes_ordered := [] }).map save_primes

/-- `Primes::new` (src/lib.rs:58). -/
def Primes.new : Option Primes := with_batch_size BATCH_SIZE

/-- `Primes::populate_next_batch` (src/lib.rs:116): advance the batch,
reset the slice to all `true`, mark the multiples of every stored prime,
record what survives. -/
def populate_next_batch (s : Primes) : Primes :=
  let batch := s.batch.update_batch (· + 1)
  let slice0 := s.inner_slice.map (fun _ => true)
  let slice := s.primes_ordered.foldl
    (fun sl p => markFrom sl batch.offset (batch.offset + batch.size) p (p * mulFactor batch.offset p))
    slice0
  save_primes { s with batch := batch, inner_slice := slice }

/-- The body of the `Primes::is_prime` loop, fuelled so that the kernel can
evaluate it.  `n` steps of fuel always suffice: `batch.current` grows by one
per iteration and the guard fails once `(current + 1) * BATCH_SIZE ≥ n`, so
the fuel-exhausted branch is never taken (`is_primeGo_guard` below). -/
def is_primeGo (n : ℕ) : ℕ → Primes → Primes × Bool
  | 0, s => (s, decide (n ∈ s.primes_found))
  | fuel + 1, s =>
    if (s.batch.current + 1) * BATCH_SIZE < n then is_primeGo n fuel (populate_next_batch s)
    else (s, decide (n ∈ s.primes_found))

/-- `Primes::is_prime` (src/lib.rs:138):
`while n > (self.batch.current + 1) * BATCH_SIZE { self.populate_next_batch(); }`
then membership in `primes_found`.  Note the guard uses the global
`BATCH_SIZE` constant, not the configured `self.batch.size`. -/
def is_prime (s : Primes) (n : ℕ) : Primes × Bool := is_primeGo n n s

/-- `pub struct PrimesIterator` (src/lib.rs:170): a cursor over the ordered
view of a `Primes` instance. -/
structure PrimesIterator where
  primes : Primes
  current : ℕ
deriving DecidableEq

/-- `Primes::iter` (src/lib.rs:75). -/
def Primes.iter (s : Primes) : PrimesIterator := ⟨s, 0⟩

/-- `<PrimesIterator as Iterator>::next` (src/lib.rs:178):
`while current >= primes_ordered.len() { populate_next_batch() }`, then
yield the value at the cursor and advance it.  The Rust loop has no bound;
`fuel` makes the embedding total, and `none` means only that the given
fuel did not suffice (the source loop would simply keep sieving). -/
def PrimesIterator.next (fuel : ℕ) (it : PrimesIterator) : Option (PrimesIterator × ℕ) :=
  if h : it.current < it.primes.primes_ordered.length then
    some ({ it with current := it.current + 1 },
          it.primes.primes_ordered.get ⟨it.current, h⟩)
  else
    match fuel with
    | 0 => none
    | fuel + 1 => PrimesIterator.next fuel { it with primes := populate_next_batch it.primes }

/-- The ascending list of primes below `n` (the reference value of the
Prime Store's ordered view). -/
def primeList (n : ℕ) : List ℕ := (List.range n).filter (fun m => decide (Nat.Prime m))

/-- State invariant maintained by every operation, with no assumption on
the arithmetic range: slice shape, batch-tracker coherence, a strictly
sorted ordered view bounded by the covered range, and the two store views
in sync. -/
def WInv (w : ℕ) (s : Primes) : Prop :=
  s.batch.size = w ∧
  s.batch.offset = s.batch.current * w ∧
  s.inner_slice.length = w ∧
  List.Sorted (· < ·) s.primes_ordered ∧
  (∀ x ∈ s.primes_ordered, 2 ≤ x ∧ x < (s.batch.current + 1) * w) ∧
  s.primes_found = s.primes_ordered.toFinset

/-- The concrete value of `with_batch_size 2`: a width-2 instance whose
batch 0 finds no primes. -/
def initW2 : Primes :=
  { inner_slice := [false, false], batch := ⟨0, 2, 0⟩, primes_found := ∅,
    primes_ordered := [] }

/-- The concrete value of `with_batch_size 3`: a width-3 instance whose
batch 0 finds only the prime 2. -/
def initW3 : Primes :=
  { inner_slice := [false, false, true], batch := ⟨0, 3, 0⟩, primes_found := {2},
    primes_ordered := [2] }

/-! ### Basic list access helpers -/

theorem getD_set (l : List Bool) (i j : ℕ) (v : Bool) :
    (l.set i v).getD j false = if i = j ∧ j < l.length then v else l.getD j false := by
  induction l generalizing i j with
  | nil => simp
  | cons a t ih =>
    cases i with
    | zero => cases j <;> simp
    | succ i =>
      cases j with
      | zero => simp
      | succ j => simpa using ih i j

theorem getD_replicate (n j : ℕ) (v : Bool) :
    (List.replicate n v).getD j false = if j < n then v else false := by
  induction n generalizing j with
  | zero => simp
  | succ n ih =>
    cases j with
    | zero => simp [List.replicate]
    | succ j => simpa [List.replicate] using ih j

theorem getD_map_const (l : List Bool) (j : ℕ) :
    (l.map (fun _ => true)).getD j false = if j < l.length then true else false := by
  induction l generalizing j with
  | nil => simp
  | cons a t ih =>
    cases j with
    | zero => simp
    | succ j => simpa using ih j

theorem getD_eq_false_of_len_le (l : List Bool) (j : ℕ) (h : l.length ≤ j) :
    l.getD j false = false := by
  induction l generalizing j with
  | nil => simp
  | cons a t ih =>
    cases j with
    | zero => simp at h
    | succ j => simpa using ih j (by simpa using h)

/-! ### The marking loop -/

theorem markFromGo_length (off bound p : ℕ) :
    ∀ (fuel : ℕ) (l : List Bool) (tmp : ℕ),
      (markFromGo off bound p fuel l tmp).length = l.length := by
  intro fuel
  induction fuel with
  | zero => intro l tmp; rfl
  | succ fuel ih =>
    intro l tmp
    simp only [markFromGo]
    split
    · rw [ih]; simp
    · rfl

theorem markFromGo_congr (off bound p : ℕ) (hp : 0 < p) :
    ∀ (f₁ f₂ : ℕ) (l : List Bool) (tmp : ℕ),
      bound - tmp ≤ f₁ → bound - tmp ≤ f₂ →
      markFromGo off bound p f₁ l tmp = markFromGo off bound p f₂ l tmp := by
  intro f₁
  induction f₁ with
  | zero =>
    intro f₂ l tmp h₁ h₂
    cases f₂ with
    | zero => rfl
    | succ f₂ => simp only [markFromGo]; rw [if_neg (by omega)]
  | succ f₁ ih =>
    intro f₂ l tmp h₁ h₂
    cases f₂ with
    | zero => simp only [markFromGo]; rw [if_neg (by omega)]
    | succ f₂ =>
      simp only [markFromGo]
      split
      · exact ih f₂ _ _ (by omega) (by omega)
      · rfl

theorem markFrom_length (l : List Bool) (off bound p tmp : ℕ) :
    (markFrom l off bound p tmp).length = l.length :=
  markFromGo_length off bound p _ l tmp

/-- One unfolding step of the loop, independent of the fuel. -/
theorem markFrom_step (l : List Bool) (off bound p tmp : ℕ) (hp : 0 < p) :
    markFrom l off bound p tmp =
      if tmp < bound then markFrom (l.set (tmp - off) false) off bound p (tmp + p)
      else l := by
  unfold markFrom
  split
  · obtain ⟨k, hk⟩ : ∃ k, bound - tmp = k + 1 := ⟨bound - tmp - 1, by omega⟩
    rw [hk]
    simp only [markFromGo]
    rw [if_pos (by assumption)]
    exact markFromGo_congr off bound p hp _ _ _ _ (by omega) (by omega)
  · cases h : bound - tmp with
    | zero => rfl
    | succ k => omega

/-- What the marking loop does to each position: position `j` ends cleared
exactly when `off + j` is one of `tmp, tmp + p, tmp + 2p, ...` below
`bound`, or was already cleared. -/
theorem markFrom_false_iff (off bound p : ℕ) (hp : 0 < p) (j : ℕ) :
    ∀ (d : ℕ) (l : List Bool) (tmp : ℕ), off ≤ tmp → bound ≤ off + l.length →
      bound - tmp ≤ d →
      ((markFrom l off bound p tmp).getD j false = false ↔
        (∃ i, tmp + i * p = off + j ∧ off + j < bound) ∨ l.getD j false = false) := by
  intro d
  induction d with
  | zero =>
    intro l tmp hoff hb hd
    rw [markFrom_step l off bound p tmp hp, if_neg (by omega)]
    constructor
    · exact fun h => Or.inr h
    · rintro (⟨i, hi, hlt⟩ | h)
      · omega
      · exact h
  | succ d ih =>
    intro l tmp hoff hb hd
    rw [markFrom_step l off bound p tmp hp]
    by_cases htmp : tmp < bound
    · rw [if_pos htmp]
      rw [ih (l.set (tmp - off) false) (tmp + p) (by omega) (by simpa using hb) (by omega)]
      rw [getD_set]
      constructor
      · rintro (⟨i, hi, hlt⟩ | hset)
        · refine Or.inl ⟨i + 1, ?_, hlt⟩
          have h2 : (i + 1) * p = i * p + p := by ring
          omega
        · by_cases hc : tmp - off = j ∧ j < l.length
          · exact Or.inl ⟨0, by omega, by omega⟩
          · rw [if_neg hc] at hset
            exact Or.inr hset
      · rintro (⟨i, hi, hlt⟩ | hl)
        · rcases i with _ | i
          · refine Or.inr ?_
            rw [if_pos ⟨by omega, by omega⟩]
          · refine Or.inl ⟨i, ?_, hlt⟩
            have h2 : (i + 1) * p = i * p + p := by ring
            omega
        · refine Or.inr ?_
          split
          · rfl
          · exact hl
    · rw [if_neg htmp]
      constructor
      · exact fun h => Or.inr h
      · rintro (⟨i, hi, hlt⟩ | h)
        · omega
        · exact h

/-- Convenient restatement of `markFrom_false_iff` without the fuel. -/
theorem markFrom_false_iff' (l : List Bool) (off bound p tmp : ℕ) (hp : 0 < p)
    (hoff : off ≤ tmp) (hb : bound ≤ off + l.length) (j : ℕ) :
    (markFrom l off bound p tmp).getD j false = false ↔
      (∃ i, tmp + i * p = off + j ∧ off + j < bound) ∨ l.getD j false = false :=
  markFrom_false_iff off bound p hp j (bound - tmp) l tmp hoff hb le_rfl

/-- The marking loop never resurrects a cleared position. -/
theorem markFrom_preserves_false (l : List Bool) (off bound p tmp j : ℕ)
    (h : l.getD j false = false) :
    (markFrom l off bound p tmp).getD j false = false := by
  unfold markFrom
  obtain ⟨d, hd⟩ : ∃ d, bound - tmp = d := ⟨bound - tmp, rfl⟩
  rw [hd]
  clear hd
  induction d generalizing l tmp with
  | zero => exact h
  | succ d ih =>
    simp only [markFromGo]
    split
    · refine ih _ _ ?_
      rw [getD_set]
      split
      · rfl
      · exact h
    · exact h

/-! ### The collection pass of `save_primes` -/

theorem collectFrom_eq : ∀ (slice : List Bool) (i off : ℕ),
    collectFrom slice i off =
      ((List.range slice.length).filter (fun j => slice.getD j false)).map
        (fun j => i + j + off) := by
  intro slice
  induction slice with
  | nil => intro i off; rfl
  | cons b rest ih =>
    intro i off
    have hcomp : ((fun j => (b :: rest).getD j false) ∘ Nat.succ) = fun j => rest.getD j false := by
      funext j
      simp [Function.comp]
    have htail : ∀ L : List ℕ,
        List.map (fun j => i + j + off) (List.map Nat.succ L) =
          List.map (fun j => i + 1 + j + off) L := by
      intro L
      rw [List.map_map]
      apply List.map_congr_left
      intro a _
      simp only [Function.comp_apply, Nat.succ_eq_add_one]
      omega
    cases b with
    | true =>
      show (i + off) :: collectFrom rest (i + 1) off = _
      simp only [List.length_cons, List.range_succ_eq_map]
      rw [List.filter_cons, List.filter_map, hcomp, if_pos (by simp)]
      rw [List.map_cons, htail, ih (i + 1) off]
      have hhead : i + 0 + off = i + off := by omega
      rw [hhead]
    | false =>
      show collectFrom rest (i + 1) off = _
      simp only [List.length_cons, List.range_succ_eq_map]
      rw [List.filter_cons, List.filter_map, hcomp, if_neg (by simp)]
      rw [htail, ih (i + 1) off]

theorem collectPrimes_eq (slice : List Bool) (off : ℕ) :
    collectPrimes slice off =
      ((List.range slice.length).filter (fun j => slice.getD j false)).map
        (fun j => j + off) := by
  rw [collectPrimes, collectFrom_eq]
  apply List.map_congr_left
  intro a _
  omega

/-! ### The fuelled base-2 logarithm -/

theorem natLog2Go_spec : ∀ (fuel n : ℕ), 1 ≤ n → n ≤ 2 ^ fuel →
    2 ^ natLog2Go fuel n ≤ n ∧ n < 2 ^ (natLog2Go fuel n + 1) := by
  intro fuel
  induction fuel with
  | zero =>
    intro n h1 h2
    simp only [pow_zero] at h2
    have : n = 1 := by omega
    subst this
    simp [natLog2Go]
  | succ fuel ih =>
    intro n h1 h2
    simp only [natLog2Go]
    by_cases hn : 2 ≤ n
    · rw [if_pos hn]
      have hdiv1 : 1 ≤ n / 2 := by omega
      have hdiv2 : n / 2 ≤ 2 ^ fuel := by
        rw [pow_succ] at h2
        omega
      obtain ⟨hl, hr⟩ := ih (n / 2) hdiv1 hdiv2
      constructor
      · rw [pow_succ]
        have : 2 ^ natLog2Go fuel (n / 2) * 2 ≤ n / 2 * 2 := by omega
        omega
      · rw [pow_succ]
        omega
    · rw [if_neg hn]
      have : n = 1 := by omega
      subst this
      simp

theorem natLog2_le (n : ℕ) (h1 : 1 ≤ n) : 2 ^ natLog2 n ≤ n :=
  (natLog2Go_spec n n h1 (Nat.le_of_lt (Nat.lt_two_pow n))).1

theorem natLog2_lt (n : ℕ) (h1 : 1 ≤ n) : n < 2 ^ (natLog2 n + 1) :=
  (natLog2Go_spec n n h1 (Nat.le_of_lt (Nat.lt_two_pow n))).2

/-! ### Round half to even -/

theorem rhe_ge (A B : ℕ) : A / B ≤ rhe A B := by
  unfold rhe
  repeat' split
  all_goals omega

theorem rhe_le (A B : ℕ) : rhe A B ≤ A / B + 1 := by
  unfold rhe
  repeat' split
  all_goals omega

theorem rhe_of_dvd (A B : ℕ) (hB : 0 < B) (h : A % B = 0) : rhe A B = A / B := by
  unfold rhe
  rw [if_pos (by omega)]

theorem rhe_of_big (A B : ℕ) (h : B < 2 * (A % B)) : rhe A B = A / B + 1 := by
  unfold rhe
  rw [if_neg (by omega), if_pos h]

/-! ### The IEEE-754 rounding model on exact inputs -/

theorem pow_le_natLog2 (m k : ℕ) (h : 2 ^ k ≤ m) : k ≤ natLog2 m := by
  have h1 : 1 ≤ m := le_trans (Nat.one_le_two_pow) h
  have h2 := natLog2_lt m h1
  have : 2 ^ k < 2 ^ (natLog2 m + 1) := lt_of_le_of_lt h h2
  have := (Nat.pow_lt_pow_iff_right (by norm_num : 1 < 2)).mp this
  omega

theorem natLog2_le_of_lt_pow (m k : ℕ) (h1 : 1 ≤ m) (h : m < 2 ^ (k + 1)) :
    natLog2 m ≤ k := by
  have h2 := natLog2_le m h1
  have : 2 ^ natLog2 m < 2 ^ (k + 1) := lt_of_le_of_lt h2 h
  have := (Nat.pow_lt_pow_iff_right (by norm_num : 1 < 2)).mp this
  omega

/-- Casting a natural number `≤ 2 ^ 53` to `f64` is exact. -/
theorem roundF64_nat (a : ℕ) (ha : a ≤ 2 ^ 53) : roundF64 (a : ℚ) = a := by
  rcases Nat.eq_zero_or_pos a with h0 | hpos
  · subst h0
    simp [roundF64]
  · have hq : (0 : ℚ) < a := by exact_mod_cast hpos
    simp only [roundF64, if_neg (not_le.mpr hq), Rat.num_natCast, Rat.den_natCast,
      Int.toNat_natCast]
    have hlog1 : natLog2 1 = 0 := rfl
    rw [hlog1]
    simp only [Nat.add_zero, Nat.div_one, one_mul]
    set e := natLog2 (a * 2 ^ 53) with he_def
    have hA1 : 0 < a * 2 ^ 53 := by positivity
    have he1 : 2 ^ e ≤ a * 2 ^ 53 := natLog2_le _ hA1
    have he2 : a * 2 ^ 53 < 2 ^ (e + 1) := natLog2_lt _ hA1
    have he_ge : 53 ≤ e := pow_le_natLog2 _ _ (by calc 2 ^ 53 = 1 * 2 ^ 53 := by ring
                                                  _ ≤ a * 2 ^ 53 := by
                                                      exact Nat.mul_le_mul_right _ hpos)
    have he_le : e ≤ 106 := natLog2_le_of_lt_pow _ _ hA1
      (lt_of_le_of_lt (Nat.mul_le_mul_right _ ha) (by norm_num))
    have hdvd : 2 ^ (e - 52) ∣ a * 2 ^ 53 := by
      by_cases hcase : e ≤ 105
      · exact dvd_mul_of_dvd_right (pow_dvd_pow 2 (by omega)) a
      · have he' : e = 106 := by omega
        have h106 : 2 ^ 106 ≤ a * 2 ^ 53 := by rw [← he']; exact he1
        have ha' : a = 2 ^ 53 := by
          have h53 : 2 ^ 53 ≤ a := by
            by_contra hcon
            push_neg at hcon
            have : a * 2 ^ 53 < 2 ^ 53 * 2 ^ 53 :=
              (Nat.mul_lt_mul_right (by positivity)).mpr hcon
            simp only [← pow_add] at this
            omega
          omega
        subst ha'
        rw [he']
        exact ⟨2 ^ 52, by norm_num [← pow_add]⟩
    have hmod : a * 2 ^ 53 % 2 ^ (e - 52) = 0 := by
      obtain ⟨c, hc⟩ := hdvd
      rw [hc]
      exact Nat.mul_mod_right _ _
    rw [rhe_of_dvd _ _ (by positivity) hmod]
    rw [Nat.cast_div hdvd (by positivity)]
    push_cast
    field_simp
    norm_num

/-- The still-untaken part of `ratCeilNat`, on positive rationals, as a
natural-number ceiling division. -/
theorem ratCeilNat_pos_eq (q : ℚ) (hq : 0 < q) :
    ratCeilNat q = (q.num.toNat + q.den - 1) / q.den := by
  have hnum : 0 < q.num := Rat.num_pos.mpr hq
  have hden : 0 < q.den := q.pos
  unfold ratCeilNat
  have h1 : q.num + (q.den : ℤ) - 1 = ((q.num.toNat + q.den - 1 : ℕ) : ℤ) := by
    push_cast
    omega
  rw [h1, ← Int.ofNat_ediv, Int.toNat_natCast]

/-- `ratCeilNat` of anything in the half-open interval `(c - 1, c]` is `c`. -/
theorem ratCeilNat_bracket (x : ℚ) (c : ℕ) (hc : 1 ≤ c)
    (h1 : (c : ℚ) - 1 < x) (h2 : x ≤ (c : ℚ)) : ratCeilNat x = c := by
  have hc1 : (1 : ℚ) ≤ (c : ℚ) := by exact_mod_cast hc
  have hx : 0 < x := by linarith
  have hnum : 0 < x.num := Rat.num_pos.mpr hx
  have hdpos : 0 < x.den := x.pos
  have hcast : ((x.num.toNat : ℤ)) = x.num := Int.toNat_of_nonneg (le_of_lt hnum)
  have hxeq : x = (x.num.toNat : ℚ) / (x.den : ℚ) := by
    conv_lhs => rw [← Rat.num_div_den x, ← hcast]
    push_cast
    ring
  have hn1 : (c - 1) * x.den < x.num.toNat := by
    have h1' : ((c : ℚ) - 1) * (x.den : ℚ) < (x.num.toNat : ℚ) := by
      rw [hxeq] at h1
      exact (lt_div_iff (by exact_mod_cast hdpos)).mp h1
    have h1n : (((c - 1) * x.den : ℕ) : ℚ) < ((x.num.toNat : ℕ) : ℚ) := by
      push_cast [Nat.cast_sub hc]
      exact h1'
    exact_mod_cast h1n
  have hn2 : x.num.toNat ≤ c * x.den := by
    have h2' : (x.num.toNat : ℚ) ≤ (c : ℚ) * (x.den : ℚ) := by
      rw [hxeq] at h2
      exact (div_le_iff (by exact_mod_cast hdpos)).mp h2
    exact_mod_cast h2'
  rw [ratCeilNat_pos_eq x hx]
  have hsub : (c - 1) * x.den + x.den = c * x.den := by
    have hc' : c - 1 + 1 = c := by omega
    calc (c - 1) * x.den + x.den = ((c - 1) + 1) * x.den := by ring
      _ = c * x.den := by rw [hc']
  refine Nat.div_eq_of_lt_le ?_ ?_
  · omega
  · have hsucc : (c + 1) * x.den = c * x.den + x.den := by ring
    omega

/-- The heart of the exactness proof: for a positive fraction `nq / d` with
numerator below `2 ^ 53` and ceiling `m`, the rounded significand lands in
`((m - 1) · 2 ^ T, m · 2 ^ T]`, so rounding never crosses the integer `m`
(`T` is the gap between the binade of the value and bit 52). -/
theorem rhe_bracket (nq d s e m : ℕ) (hd2 : 2 ≤ d) (hnpos : 0 < nq)
    (hnum : nq < 2 ^ 53) (hs : s = 53 + natLog2 d)
    (he : e = natLog2 (nq * 2 ^ s / d))
    (hm1 : 1 ≤ m) (hm_lt : nq < d * m) (hm_gt : (m - 1) * d < nq) :
    (m - 1) * 2 ^ (s + 52 - e) + 1 ≤ rhe (nq * 2 ^ s) (d * 2 ^ (e - 52)) ∧
      rhe (nq * 2 ^ s) (d * 2 ^ (e - 52)) ≤ m * 2 ^ (s + 52 - e) ∧
      52 ≤ e ∧ e ≤ s + 52 := by
  have hdpos : 0 < d := by omega
  have hApos : 0 < nq * 2 ^ s := by positivity
  have hAd_pos : 0 < nq * 2 ^ s / d := by
    refine (Nat.le_div_iff_mul_le hdpos).mpr ?_
    calc 1 * d = d := by ring
      _ ≤ 2 ^ s := le_of_lt (lt_of_lt_of_le (natLog2_lt d hdpos)
          (Nat.pow_le_pow_right (by norm_num) (by omega)))
      _ ≤ nq * 2 ^ s := Nat.le_mul_of_pos_left _ hnpos
  have hAd : 2 ^ 52 ≤ nq * 2 ^ s / d := by
    rw [Nat.le_div_iff_mul_le hdpos]
    calc 2 ^ 52 * d ≤ 2 ^ 52 * 2 ^ (natLog2 d + 1) :=
        Nat.mul_le_mul_left _ (le_of_lt (natLog2_lt d hdpos))
      _ = 2 ^ s := by rw [← pow_add]; congr 1; omega
      _ ≤ nq * 2 ^ s := Nat.le_mul_of_pos_left _ hnpos
  have he_ge : 52 ≤ e := he ▸ pow_le_natLog2 _ _ hAd
  have he_le : e ≤ s + 52 := by
    rw [he]
    refine natLog2_le_of_lt_pow _ _ hAd_pos ?_
    calc nq * 2 ^ s / d ≤ nq * 2 ^ s := Nat.div_le_self _ _
      _ < 2 ^ 53 * 2 ^ s := (Nat.mul_lt_mul_right (by positivity)).mpr hnum
      _ = 2 ^ (s + 52 + 1) := by rw [← pow_add]; congr 1; omega
  have he1 : 2 ^ e * d ≤ nq * 2 ^ s :=
    (Nat.le_div_iff_mul_le hdpos).mp (he ▸ natLog2_le _ hAd_pos)
  have hTE : 2 ^ (s + 52 - e) * 2 ^ (e - 52) = 2 ^ s := by
    rw [← pow_add]; congr 1; omega
  have hd_lt : d < 2 ^ (s + 52 - e + 1) := by
    have h1 : d * 2 ^ e ≤ nq * 2 ^ s := by rw [mul_comm]; exact he1
    have h2 : nq * 2 ^ s < 2 ^ 53 * 2 ^ s :=
      (Nat.mul_lt_mul_right (by positivity)).mpr hnum
    have h3 : 2 ^ 53 * 2 ^ s = 2 ^ (s + 52 - e + 1) * 2 ^ e := by
      rw [← pow_add, ← pow_add]; congr 1; omega
    have h4 : d * 2 ^ e < 2 ^ (s + 52 - e + 1) * 2 ^ e := by
      rw [← h3]; exact lt_of_le_of_lt h1 h2
    exact Nat.lt_of_mul_lt_mul_right h4
  -- share the four big products as single variables
  set A := nq * 2 ^ s with hAdef
  set B := d * 2 ^ (e - 52) with hBdef
  set M := m * 2 ^ (s + 52 - e) with hMdef
  set M' := (m - 1) * 2 ^ (s + 52 - e) with hM'def
  have hBpos : 0 < B := by rw [hBdef]; positivity
  -- (i)  A < M * B
  have hi : A < M * B := by
    rw [hAdef, hBdef, hMdef]
    calc nq * 2 ^ s < d * m * 2 ^ s := (Nat.mul_lt_mul_right (by positivity)).mpr hm_lt
      _ = m * d * (2 ^ (s + 52 - e) * 2 ^ (e - 52)) := by rw [hTE]; ring
      _ = m * 2 ^ (s + 52 - e) * (d * 2 ^ (e - 52)) := by ring
  -- (ii) M' * B < A
  have hii : M' * B < A := by
    rw [hAdef, hBdef, hM'def]
    calc (m - 1) * 2 ^ (s + 52 - e) * (d * 2 ^ (e - 52))
        = (m - 1) * d * (2 ^ (s + 52 - e) * 2 ^ (e - 52)) := by ring
      _ = (m - 1) * d * 2 ^ s := by rw [hTE]
      _ < nq * 2 ^ s := (Nat.mul_lt_mul_right (by positivity)).mpr hm_gt
  -- (iii) 2 * (B * M') + B < 2 * A
  have hiii : 2 * (B * M') + B < 2 * A := by
    rw [hAdef, hBdef, hM'def]
    have hq_lb : (m - 1) * d + 1 ≤ nq := by omega
    have hsplit : 2 * (d * 2 ^ (e - 52) * ((m - 1) * 2 ^ (s + 52 - e))) =
        2 * ((m - 1) * d * 2 ^ s) := by
      calc 2 * (d * 2 ^ (e - 52) * ((m - 1) * 2 ^ (s + 52 - e)))
          = 2 * ((m - 1) * d * (2 ^ (s + 52 - e) * 2 ^ (e - 52))) := by ring
        _ = 2 * ((m - 1) * d * 2 ^ s) := by rw [hTE]
    rw [hsplit]
    have hlb : 2 * ((m - 1) * d * 2 ^ s) + 2 * 2 ^ s ≤ 2 * (nq * 2 ^ s) := by
      have hmul : ((m - 1) * d + 1) * 2 ^ s ≤ nq * 2 ^ s :=
        Nat.mul_le_mul_right _ hq_lb
      have hexp : ((m - 1) * d + 1) * 2 ^ s = (m - 1) * d * 2 ^ s + 2 ^ s := by ring
      omega
    have hsmall : d * 2 ^ (e - 52) < 2 * 2 ^ s := by
      calc d * 2 ^ (e - 52) < 2 ^ (s + 52 - e + 1) * 2 ^ (e - 52) :=
          (Nat.mul_lt_mul_right (by positivity)).mpr hd_lt
        _ = 2 ^ (s + 52 - e) * 2 ^ (e - 52) * 2 := by rw [pow_succ]; ring
        _ = 2 * 2 ^ s := by rw [hTE]; ring
    omega
  -- conclude the bracket for `rhe`
  have hMpos : 0 < M := by rw [hMdef]; positivity
  refine ⟨?_, ?_, he_ge, he_le⟩
  · -- lower bound
    have hcomm : M' * B = B * M' := by ring
    have hfloor_ge : M' ≤ A / B := (Nat.le_div_iff_mul_le hBpos).mpr (le_of_lt hii)
    by_cases hf : M' + 1 ≤ A / B
    · exact le_trans hf (rhe_ge _ _)
    · have hfloor : A / B = M' := by omega
      have hdm := Nat.div_add_mod A B
      rw [hfloor] at hdm
      have hbig : B < 2 * (A % B) := by omega
      rw [rhe_of_big _ _ hbig, hfloor]
  · -- upper bound
    have hfloor_lt : A / B < M := by
      rw [Nat.div_lt_iff_lt_mul hBpos]
      exact hi
    calc rhe A B ≤ A / B + 1 := rhe_le _ _
      _ ≤ M := by omega

/-- Rounding a positive value whose numerator is below `2 ^ 53` to `f64`
never changes its ceiling: the program's `.ceil()` of a rounded quotient
agrees with the exact integer ceiling in this range. -/
theorem roundF64_ceilNat (q : ℚ) (hq : 0 < q) (hnum : q.num < 2 ^ 53) :
    ratCeilNat (roundF64 q) = ratCeilNat q := by
  have hnpos : 0 < q.num := Rat.num_pos.mpr hq
  have hdpos : 0 < q.den := q.pos
  have htn : q.num.toNat ≤ 2 ^ 53 := by
    have h2 : ((2 : ℤ) ^ 53) = ((2 ^ 53 : ℕ) : ℤ) := by norm_num
    omega
  by_cases hden : q.den = 1
  · have hcast0 : ((q.num.toNat : ℤ)) = q.num := Int.toNat_of_nonneg (le_of_lt hnpos)
    have hqn : q = ((q.num.toNat : ℕ) : ℚ) := by
      conv_lhs => rw [← Rat.num_div_den q, ← hcast0]
      rw [hden]
      push_cast
      ring
    rw [hqn, roundF64_nat _ htn]
  · have hd2 : 2 ≤ q.den := by omega
    have hcast : ((q.num.toNat : ℤ)) = q.num := Int.toNat_of_nonneg (le_of_lt hnpos)
    have hqeq : q = (q.num.toNat : ℚ) / (q.den : ℚ) := by
      conv_lhs => rw [← Rat.num_div_den q, ← hcast]
      push_cast
      ring
    have hnum' : q.num.toNat < 2 ^ 53 := by
      have h2 : ((2 : ℤ) ^ 53) = ((2 ^ 53 : ℕ) : ℤ) := by norm_num
      omega
    have hnpos' : 0 < q.num.toNat := by omega
    rw [ratCeilNat_pos_eq q hq]
    set m := (q.num.toNat + q.den - 1) / q.den with hmdef
    obtain ⟨r, hr_lt, hr_eq⟩ :
        ∃ r, r < q.den ∧ q.num.toNat + q.den - 1 = q.den * m + r :=
      ⟨(q.num.toNat + q.den - 1) % q.den, Nat.mod_lt _ hdpos,
        (Nat.div_add_mod _ _).symm⟩
    have hm1 : 1 ≤ m := by
      rw [hmdef]
      refine (Nat.le_div_iff_mul_le hdpos).mpr ?_
      omega
    have hm_le : q.num.toNat ≤ q.den * m := by omega
    have hm_ne : q.num.toNat ≠ q.den * m := by
      intro hcon
      have hqm : q = (m : ℚ) := by
        rw [hqeq, hcon]
        push_cast
        rw [mul_comm]
        exact mul_div_cancel_right₀ _ (by exact_mod_cast hdpos.ne')
      have hden1 : q.den = 1 := by rw [hqm]; exact Rat.den_natCast m
      omega
    have hm_lt : q.num.toNat < q.den * m := lt_of_le_of_ne hm_le hm_ne
    have hm_gt : (m - 1) * q.den < q.num.toNat := by
      have hsub : (m - 1) * q.den + q.den = q.den * m := by
        have hm' : m - 1 + 1 = m := by omega
        calc (m - 1) * q.den + q.den = ((m - 1) + 1) * q.den := by ring
          _ = q.den * m := by rw [hm']; ring
      omega
    have hbr := rhe_bracket q.num.toNat q.den (53 + natLog2 q.den)
      (natLog2 (q.num.toNat * 2 ^ (53 + natLog2 q.den) / q.den)) m hd2 hnpos' hnum'
      rfl rfl hm1 hm_lt hm_gt
    set s := 53 + natLog2 q.den with hsdef
    set e := natLog2 (q.num.toNat * 2 ^ s / q.den) with hedef
    set R := rhe (q.num.toNat * 2 ^ s) (q.den * 2 ^ (e - 52)) with hRdef
    obtain ⟨hlow, hhigh, he_ge, he_le⟩ := hbr
    have hround : roundF64 q = ((2 : ℚ) ^ (e - 52) * R) / 2 ^ s := by
      simp only [roundF64, if_neg (not_le.mpr hq)]
    have hTE : 2 ^ (s + 52 - e) * 2 ^ (e - 52) = 2 ^ s := by
      rw [← pow_add]; congr 1; omega
    have hlow' : (m - 1) * 2 ^ s < 2 ^ (e - 52) * R := by
      calc (m - 1) * 2 ^ s = (m - 1) * (2 ^ (s + 52 - e) * 2 ^ (e - 52)) := by rw [hTE]
        _ = 2 ^ (e - 52) * ((m - 1) * 2 ^ (s + 52 - e)) := by ring
        _ < 2 ^ (e - 52) * ((m - 1) * 2 ^ (s + 52 - e) + 1) :=
            (Nat.mul_lt_mul_left (by positivity)).mpr (Nat.lt_succ_self _)
        _ ≤ 2 ^ (e - 52) * R := Nat.mul_le_mul_left _ hlow
    have hhigh' : 2 ^ (e - 52) * R ≤ m * 2 ^ s := by
      calc 2 ^ (e - 52) * R ≤ 2 ^ (e - 52) * (m * 2 ^ (s + 52 - e)) :=
          Nat.mul_le_mul_left _ hhigh
        _ = m * (2 ^ (s + 52 - e) * 2 ^ (e - 52)) := by ring
        _ = m * 2 ^ s := by rw [hTE]
    refine ratCeilNat_bracket _ m hm1 ?_ ?_
    · rw [hround, lt_div_iff (by positivity)]
      have hc : (((m - 1) * 2 ^ s : ℕ) : ℚ) < ((2 ^ (e - 52) * R : ℕ) : ℚ) := by
        exact_mod_cast hlow'
      push_cast [Nat.cast_sub hm1] at hc
      push_cast
      linarith
    · rw [hround, div_le_iff (by positivity)]
      have hc : ((2 ^ (e - 52) * R : ℕ) : ℚ) ≤ ((m * 2 ^ s : ℕ) : ℚ) := by
        exact_mod_cast hhigh'
      push_cast at hc
      push_cast
      linarith

/-- The numerator of the reduced fraction `a / p` is positive and at most
`a`. -/
theorem num_div_bounds (a p : ℕ) (ha : 0 < a) (hp : 0 < p) :
    0 < ((a : ℚ) / (p : ℚ)).num ∧ ((a : ℚ) / (p : ℚ)).num.natAbs ≤ a := by
  set q := (a : ℚ) / (p : ℚ) with hqdef
  have hppos : (0 : ℚ) < (p : ℚ) := by exact_mod_cast hp
  have hq : 0 < q := div_pos (by exact_mod_cast ha) hppos
  have hnpos : 0 < q.num := Rat.num_pos.mpr hq
  refine ⟨hnpos, ?_⟩
  have hqp : q * (p : ℚ) = (a : ℚ) := div_mul_cancel₀ _ (ne_of_gt hppos)
  have hmul : (q.num : ℚ) * (p : ℚ) = (a : ℚ) * (q.den : ℚ) := by
    have h1 : ((q.num : ℚ) / (q.den : ℚ)) * (p : ℚ) = (a : ℚ) := by
      rw [Rat.num_div_den]; exact hqp
    have hdq : ((q.den : ℚ)) ≠ 0 := by
      exact_mod_cast q.pos.ne'
    field_simp at h1
    linarith [h1]
  have hmulz : q.num * (p : ℤ) = (a : ℤ) * (q.den : ℤ) := by exact_mod_cast hmul
  have hdvd : q.num ∣ ((a * q.den : ℕ) : ℤ) := by
    refine ⟨(p : ℤ), ?_⟩
    push_cast
    linarith [hmulz]
  have hdvd' : q.num.natAbs ∣ a * q.den := by
    have h2 := Int.natAbs_dvd_natAbs.mpr hdvd
    rwa [Int.natAbs_ofNat] at h2
  have hco : q.num.natAbs.Coprime q.den := q.reduced
  have hdvda : q.num.natAbs ∣ a := hco.dvd_of_dvd_mul_right hdvd'
  exact Nat.le_of_dvd ha hdvda

/-- The program's `f64` computation of `ceil(a / p)` is exact whenever both
operands are below `2 ^ 53`: it equals the integer ceiling division. -/
theorem mulFactor_eq (a p : ℕ) (ha1 : 1 ≤ a) (ha : a < 2 ^ 53)
    (hp1 : 1 ≤ p) (hp : p < 2 ^ 53) :
    mulFactor a p = (a + p - 1) / p := by
  unfold mulFactor
  rw [roundF64_nat a (le_of_lt ha), roundF64_nat p (le_of_lt hp)]
  have hppos : (0 : ℚ) < (p : ℚ) := by exact_mod_cast hp1
  have hq : (0 : ℚ) < (a : ℚ) / (p : ℚ) := div_pos (by exact_mod_cast ha1) hppos
  obtain ⟨hnpos, hnle⟩ := num_div_bounds a p (by omega) (by omega)
  have hnum_lt : ((a : ℚ) / (p : ℚ)).num < 2 ^ 53 := by
    have h2 : ((2 : ℤ) ^ 53) = ((2 ^ 53 : ℕ) : ℤ) := by norm_num
    omega
  rw [roundF64_ceilNat _ hq hnum_lt]
  set c := (a + p - 1) / p with hcdef
  obtain ⟨r, hr_lt, hr_eq⟩ : ∃ r, r < p ∧ a + p - 1 = p * c + r :=
    ⟨(a + p - 1) % p, Nat.mod_lt _ (by omega), (Nat.div_add_mod _ _).symm⟩
  have hc1 : 1 ≤ c := by
    rw [hcdef]
    refine (Nat.le_div_iff_mul_le (by omega)).mpr ?_
    omega
  refine ratCeilNat_bracket _ c hc1 ?_ ?_
  · rw [lt_div_iff hppos]
    have hnat : (c - 1) * p < a := by
      have hsub : (c - 1) * p + p = p * c := by
        have hc' : c - 1 + 1 = c := by omega
        calc (c - 1) * p + p = ((c - 1) + 1) * p := by ring
          _ = p * c := by rw [hc']; ring
      omega
    have hcast : (((c - 1) * p : ℕ) : ℚ) < ((a : ℕ) : ℚ) := by exact_mod_cast hnat
    push_cast [Nat.cast_sub hc1] at hcast
    push_cast
    linarith
  · rw [div_le_iff hppos]
    have hnat : a ≤ c * p := by
      have hcomm : c * p = p * c := by ring
      omega
    have hcast : ((a : ℕ) : ℚ) ≤ ((c * p : ℕ) : ℚ) := by exact_mod_cast hnat
    push_cast at hcast
    push_cast
    linarith

/-- `p * mulFactor offset p` is the least multiple of `p` that is `≥ offset`
(exact-range version). -/
theorem mulFactor_spec (a p : ℕ) (ha1 : 1 ≤ a) (ha : a < 2 ^ 53)
    (hp1 : 1 ≤ p) (hp : p < 2 ^ 53) :
    a ≤ p * mulFactor a p ∧ p * mulFactor a p < a + p := by
  rw [mulFactor_eq a p ha1 ha hp1 hp]
  obtain ⟨r, hr_lt, hr_eq⟩ : ∃ r, r < p ∧ a + p - 1 = p * ((a + p - 1) / p) + r :=
    ⟨(a + p - 1) % p, Nat.mod_lt _ (by omega), (Nat.div_add_mod _ _).symm⟩
  omega

/-! ### Basic facts about the state-stepping operations -/

theorem save_primes_batch (s : Primes) : (save_primes s).batch = s.batch := rfl

theorem save_primes_slice (s : Primes) : (save_primes s).inner_slice = s.inner_slice := rfl

theorem populate_next_batch_batch (s : Primes) :
    (populate_next_batch s).batch =
      ⟨s.batch.current + 1, s.batch.size, (s.batch.current + 1) * s.batch.size⟩ := rfl

theorem foldl_markFrom_length (off bound : ℕ) (f : ℕ → ℕ) :
    ∀ (ps : List ℕ) (sl : List Bool),
      (ps.foldl (fun sl p => markFrom sl off bound p (p * f p)) sl).length = sl.length := by
  intro ps
  induction ps with
  | nil => intro sl; rfl
  | cons p rest ih =>
    intro sl
    rw [List.foldl_cons, ih, markFrom_length]

theorem populate_next_batch_slice (s : Primes) :
    (populate_next_batch s).inner_slice =
      s.primes_ordered.foldl
        (fun sl p => markFrom sl ((s.batch.current + 1) * s.batch.size)
          ((s.batch.current + 1) * s.batch.size + s.batch.size) p
          (p * mulFactor ((s.batch.current + 1) * s.batch.size) p))
        (s.inner_slice.map (fun _ => true)) := rfl

theorem populate_next_batch_slice_length (s : Primes) :
    (populate_next_batch s).inner_slice.length = s.inner_slice.length := by
  rw [populate_next_batch_slice, foldl_markFrom_length, List.length_map]

theorem populate_next_batch_ordered (s : Primes) :
    (populate_next_batch s).primes_ordered =
      s.primes_ordered ++
        collectPrimes
          (s.primes_ordered.foldl
            (fun sl p => markFrom sl ((s.batch.current + 1) * s.batch.size)
              ((s.batch.current + 1) * s.batch.size + s.batch.size) p
              (p * mulFactor ((s.batch.current + 1) * s.batch.size) p))
            (s.inner_slice.map (fun _ => true)))
          ((s.batch.current + 1) * s.batch.size) := rfl

theorem populate_next_batch_found (s : Primes) :
    (populate_next_batch s).primes_found =
      s.primes_found ∪
        (collectPrimes
          (s.primes_ordered.foldl
            (fun sl p => markFrom sl ((s.batch.current + 1) * s.batch.size)
              ((s.batch.current + 1) * s.batch.size + s.batch.size) p
              (p * mulFactor ((s.batch.current + 1) * s.batch.size) p))
            (s.inner_slice.map (fun _ => true)))
          ((s.batch.current + 1) * s.batch.size)).toFinset := rfl

/-! ### Correctness of the batch-0 sieve (`populate_first_batch`) -/

theorem prime_iff_no_small_prime_divisor (i : ℕ) (h2 : 2 ≤ i) :
    (∀ t, Nat.Prime t → t < i → t ∣ i → i = t) ↔ Nat.Prime i := by
  constructor
  · intro h
    by_contra hnp
    have hmf_prime : (Nat.minFac i).Prime := Nat.minFac_prime (by omega)
    have hmf_dvd : Nat.minFac i ∣ i := Nat.minFac_dvd i
    have hmf_le : Nat.minFac i ≤ i := Nat.le_of_dvd (by omega) hmf_dvd
    have hmf_ne : Nat.minFac i ≠ i := by
      intro hcon
      exact hnp (Nat.prime_def_minFac.mpr ⟨h2, hcon⟩)
    have := h (Nat.minFac i) hmf_prime (by omega) hmf_dvd
    omega
  · intro hp t ht hlt hdvd
    rcases (Nat.Prime.eq_one_or_self_of_dvd hp t hdvd) with h1 | h1
    · exact absurd h1 ht.ne_one
    · omega

theorem foldl_sieve_length (w : ℕ) : ∀ (ps : List ℕ) (l : List Bool),
    (ps.foldl (fun sl i => if sl.getD i false then markFrom sl 0 w i (i + i) else sl)
      l).length = l.length := by
  intro ps
  induction ps with
  | nil => intro l; rfl
  | cons p rest ih =>
    intro l
    rw [List.foldl_cons, ih]
    split
    · exact markFrom_length _ _ _ _ _
    · rfl

theorem init_slice_getD (w j : ℕ) :
    ((((List.replicate w true).set 0 false).set 1 false)).getD j false =
      decide (2 ≤ j ∧ j < w) := by
  rw [getD_set, getD_set, getD_replicate]
  rcases j with _ | _ | j
  · simp
  · by_cases h : 1 < w <;> simp_all <;> omega
  · simp only [List.length_set, List.length_replicate]
    by_cases h : j + 2 < w <;> simp_all <;> omega

theorem first_batch_inv (w : ℕ) (hw : 2 ≤ w) :
    ∀ (c : ℕ), 2 + c ≤ w →
    ∀ j, (((List.range' 2 c).foldl
        (fun sl i => if sl.getD i false then markFrom sl 0 w i (i + i) else sl)
        (((List.replicate w true).set 0 false).set 1 false)).getD j false = true ↔
      (2 ≤ j ∧ j < w ∧ ∀ t, Nat.Prime t → t < 2 + c → t ∣ j → j = t)) := by
  intro c
  induction c with
  | zero =>
    intro _ j
    rw [List.range'_zero, List.foldl_nil, init_slice_getD]
    constructor
    · intro h
      have h' : 2 ≤ j ∧ j < w := by simpa using h
      exact ⟨h'.1, h'.2, fun t ht hlt _ => absurd hlt (by have := ht.two_le; omega)⟩
    · rintro ⟨h1, h2, _⟩
      simp [h1, h2]
  | succ c ih =>
    intro hc j
    have hc' : 2 + c ≤ w := by omega
    have hrange : List.range' 2 (c + 1) = List.range' 2 c ++ [2 + c] := by
      have h := (List.range'_concat 2 c :
        List.range' 2 (c + 1) = List.range' 2 c ++ [2 + 1 * c])
      simpa using h
    rw [hrange, List.foldl_append, List.foldl_cons, List.foldl_nil]
    set L := (List.range' 2 c).foldl
        (fun sl i => if sl.getD i false then markFrom sl 0 w i (i + i) else sl)
        (((List.replicate w true).set 0 false).set 1 false) with hL
    have hLlen : L.length = w := by
      rw [hL, foldl_sieve_length]
      simp
    set i := 2 + c with hi
    have hcond : L.getD i false = true ↔ Nat.Prime i := by
      rw [ih hc' i]
      have h2i : 2 ≤ i := by omega
      have hiw : i < w := by omega
      constructor
      · rintro ⟨-, -, h⟩
        exact (prime_iff_no_small_prime_divisor i h2i).mp h
      · intro hp
        exact ⟨h2i, hiw, fun t ht hlt hdvd =>
          ((prime_iff_no_small_prime_divisor i h2i).mpr hp) t ht hlt hdvd⟩
    by_cases hb : L.getD i false = true
    · -- `i` is prime: its multiples from `2i` get marked
      have hip : Nat.Prime i := hcond.mp hb
      rw [if_pos hb]
      have hmark := markFrom_false_iff' L 0 w i (i + i) (by omega) (by omega)
        (by omega) j
      have hj_iff := ih hc' j
      constructor
      · intro htrue
        have hnotfalse : ¬ ((markFrom L 0 w i (i + i)).getD j false = false) := by
          rw [htrue]
          simp
        rw [hmark] at hnotfalse
        have hnomark : ¬ ∃ t', i + i + t' * i = 0 + j ∧ 0 + j < w :=
          fun h => hnotfalse (Or.inl h)
        have holdtrue : ¬ (L.getD j false = false) := fun h => hnotfalse (Or.inr h)
        have holdtrue' : L.getD j false = true := by
          cases h : L.getD j false
          · exact absurd h holdtrue
          · rfl
        obtain ⟨hj2, hjw, hjcond⟩ := hj_iff.mp holdtrue'
        refine ⟨hj2, hjw, fun t ht hlt hdvd => ?_⟩
        by_cases htc : t < 2 + c
        · exact hjcond t ht htc hdvd
        · have hti : t = i := by omega
          subst hti
          by_contra hne
          obtain ⟨k, hk⟩ := hdvd
          have hk2 : 2 ≤ k := by
            rcases k with _ | _ | k
            · omega
            · omega
            · omega
          refine hnomark ⟨k - 2, ?_, by omega⟩
          have h1 : (k - 2) * i + 2 * i = k * i := by
            have h2 : k - 2 + 2 = k := by omega
            calc (k - 2) * i + 2 * i = ((k - 2) + 2) * i := by ring
              _ = k * i := by rw [h2]
          have h3 : k * i = i * k := by ring
          omega
      · rintro ⟨hj2, hjw, hjcond⟩
        have holdtrue : L.getD j false = true :=
          hj_iff.mpr ⟨hj2, hjw, fun t ht hlt hdvd => hjcond t ht (by omega) hdvd⟩
        cases h : (markFrom L 0 w i (i + i)).getD j false
        · exfalso
          rw [hmark] at h
          rcases h with ⟨t', ht', hlt'⟩ | hfalse
          · -- j is a marked multiple of i, yet survives the divisor condition
            have hdvd : i ∣ j := ⟨t' + 2, by
              have h1 : i * (t' + 2) = i + i + t' * i := by ring
              omega⟩
            have := hjcond i hip (by omega) hdvd
            omega
          · rw [holdtrue] at hfalse
            exact absurd hfalse (by simp)
        · rfl
    · -- `i` is composite: the slice is unchanged and no new prime appears
      rw [if_neg hb]
      have hnp : ¬ Nat.Prime i := fun hp => hb (hcond.mpr hp)
      rw [ih hc' j]
      constructor
      · rintro ⟨hj2, hjw, hjcond⟩
        refine ⟨hj2, hjw, fun t ht hlt hdvd => ?_⟩
        by_cases htc : t < 2 + c
        · exact hjcond t ht htc hdvd
        · have : t = i := by omega
          subst this
          exact absurd ht hnp
      · rintro ⟨hj2, hjw, hjcond⟩
        exact ⟨hj2, hjw, fun t ht hlt hdvd => hjcond t ht (by omega) hdvd⟩

theorem first_batch_loop_getD (w : ℕ) (hw : 2 ≤ w) (j : ℕ) :
    (first_batch_loop (((List.replicate w true).set 0 false).set 1 false) w).getD j false
      = true ↔ (j < w ∧ Nat.Prime j) := by
  have h := first_batch_inv w hw (w - 2) (by omega) j
  have hc : 2 + (w - 2) = w := by omega
  rw [hc] at h
  rw [first_batch_loop, h]
  constructor
  · rintro ⟨hj2, hjw, hjcond⟩
    refine ⟨hjw, (prime_iff_no_small_prime_divisor j hj2).mp ?_⟩
    intro t ht hlt hdvd
    exact hjcond t ht (by omega) hdvd
  · rintro ⟨hjw, hp⟩
    refine ⟨hp.two_le, hjw, fun t ht hlt hdvd => ?_⟩
    rcases hp.eq_one_or_self_of_dvd t hdvd with h1 | h1
    · exact absurd h1 ht.ne_one
    · omega

/-! ### The reference prime list -/

theorem primeList_sorted (n : ℕ) : List.Sorted (· < ·) (primeList n) :=
  List.Pairwise.filter _ (List.pairwise_lt_range n)

theorem primeList_mem (n x : ℕ) : x ∈ primeList n ↔ x < n ∧ Nat.Prime x := by
  simp only [primeList, List.mem_filter, List.mem_range, decide_eq_true_eq]

theorem primeList_append (a b : ℕ) :
    primeList (a + b) = primeList a ++
      ((List.range b).filter (fun j => decide (Nat.Prime (a + j)))).map (fun j => a + j) := by
  unfold primeList
  rw [List.range_add, List.filter_append, List.filter_map]
  congr 1

/-! ### Characterization of construction -/

theorem collect_first_batch (w : ℕ) (hw : 2 ≤ w) :
    collectPrimes (first_batch_loop (((List.replicate w true).set 0 false).set 1 false) w)
      0 = primeList w := by
  rw [collectPrimes_eq]
  have hlen :
      (first_batch_loop (((List.replicate w true).set 0 false).set 1 false) w).length = w := by
    rw [first_batch_loop, foldl_sieve_length]
    simp
  rw [hlen]
  have hfeq : (List.range w).filter
      (fun j => (first_batch_loop (((List.replicate w true).set 0 false).set 1 false) w).getD
        j false) = (List.range w).filter (fun m => decide (Nat.Prime m)) := by
    apply List.filter_congr
    intro a ha
    have haw : a < w := List.mem_range.mp ha
    have h := first_batch_loop_getD w hw a
    cases hval : (first_batch_loop (((List.replicate w true).set 0 false).set 1 false)
        w).getD a false
    · rw [hval] at h
      have hnp : ¬ Nat.Prime a := fun hp => by
        have : (false : Bool) = true := h.mpr ⟨haw, hp⟩
        simp at this
      simp [hnp]
    · rw [hval] at h
      have hp : Nat.Prime a := (h.mp rfl).2
      simp [hp]
  rw [hfeq]
  have hid : ∀ L : List ℕ, L.map (fun j => j + 0) = L := by
    intro L
    simp
  rw [hid, primeList]

theorem with_batch_size_eq (w : ℕ) (hw : 2 ≤ w) :
    with_batch_size w = some
      { inner_slice := first_batch_loop (((List.replicate w true).set 0 false).set 1 false) w
        batch := ⟨0, w, 0⟩
        primes_found := (primeList w).toFinset
        primes_ordered := primeList w } := by
  have hsave := collect_first_batch w hw
  simp only [with_batch_size, populate_first_batch, setStrict, List.length_replicate,
    List.length_set, Batch.new]
  rw [if_pos (by omega : (0 : ℕ) < w)]
  simp only [Option.some_bind, List.length_set, List.length_replicate]
  rw [if_pos (by omega : (1 : ℕ) < w)]
  simp only [Option.some_bind, Option.map_some', save_primes, hsave]
  simp

/-! ### The weak invariant: shape, sortedness, view synchronisation -/

theorem winv_init (w : ℕ) (hw : 2 ≤ w) (s₀ : Primes)
    (h : with_batch_size w = some s₀) : WInv w s₀ := by
  rw [with_batch_size_eq w hw] at h
  injection h with h
  subst h
  refine ⟨rfl, (zero_mul w).symm, ?_, primeList_sorted w, ?_, rfl⟩
  · rw [first_batch_loop, foldl_sieve_length]
    simp
  · intro x hx
    obtain ⟨hxw, hxp⟩ := (primeList_mem w x).mp hx
    refine ⟨hxp.two_le, ?_⟩
    show x < (0 + 1) * w
    omega

theorem winv_step (w : ℕ) (hw : 2 ≤ w) (s : Primes) (h : WInv w s) :
    WInv w (populate_next_batch s) := by
  obtain ⟨hsize, hoff, hlen, hsorted, hbounds, hfound⟩ := h
  have hbatch := populate_next_batch_batch s
  have hord := populate_next_batch_ordered s
  have hfnd := populate_next_batch_found s
  have hslen := populate_next_batch_slice_length s
  set c := s.batch.current with hc
  set slice' := s.primes_ordered.foldl
      (fun sl p => markFrom sl ((c + 1) * s.batch.size)
        ((c + 1) * s.batch.size + s.batch.size) p
        (p * mulFactor ((c + 1) * s.batch.size) p))
      (s.inner_slice.map (fun _ => true)) with hslice
  have hslice_len : slice'.length = w := by
    rw [hslice, foldl_markFrom_length, List.length_map, hlen]
  have hcollect : collectPrimes slice' ((c + 1) * s.batch.size) =
      ((List.range w).filter (fun j => slice'.getD j false)).map
        (fun j => j + (c + 1) * s.batch.size) := by
    rw [collectPrimes_eq, hslice_len]
  have hvals : ∀ y ∈ collectPrimes slice' ((c + 1) * s.batch.size),
      (c + 1) * w ≤ y ∧ y < (c + 2) * w := by
    intro y hy
    rw [hcollect] at hy
    obtain ⟨j, hj, rfl⟩ := List.mem_map.mp hy
    have hjw : j < w := List.mem_range.mp (List.mem_filter.mp hj).1
    rw [hsize]
    constructor
    · omega
    · have hexp : (c + 2) * w = (c + 1) * w + w := by ring
      omega
  refine ⟨?_, ?_, ?_, ?_, ?_, ?_⟩
  · rw [hbatch]
    exact hsize
  · rw [hbatch, hsize]
  · rw [populate_next_batch_slice_length, hlen]
  · rw [hord]
    rw [List.Sorted, List.pairwise_append]
    refine ⟨hsorted, ?_, ?_⟩
    · rw [hcollect]
      refine List.Pairwise.map _ ?_ (List.Pairwise.filter _ (List.pairwise_lt_range w))
      intro a b hab
      omega
    · intro x hx y hy
      have hx' := (hbounds x hx).2
      have hy' := (hvals y hy).1
      omega
  · intro x hx
    rw [hord] at hx
    have hcur : (populate_next_batch s).batch.current = c + 1 := by rw [hbatch]
    rw [hcur]
    rcases List.mem_append.mp hx with hx | hx
    · obtain ⟨h2, hlt⟩ := hbounds x hx
      have hexp1 : (c + 1 + 1) * w = (c + 1) * w + w := by ring
      exact ⟨h2, by omega⟩
    · obtain ⟨hge, hlt⟩ := hvals x hx
      have h2w : 2 ≤ (c + 1) * w := by
        have h1w : 1 * w ≤ (c + 1) * w := Nat.mul_le_mul_right _ (by omega)
        omega
      have hexp1 : (c + 1 + 1) * w = (c + 2) * w := by ring
      exact ⟨by omega, by omega⟩
  · rw [hfnd, hord, List.toFinset_append, hfound]

theorem winv_iterate (w : ℕ) (hw : 2 ≤ w) (s₀ : Primes)
    (h0 : with_batch_size w = some s₀) (k : ℕ) :
    WInv w (populate_next_batch^[k] s₀) := by
  induction k with
  | zero => exact winv_init w hw s₀ h0
  | succ k ih =>
    rw [Function.iterate_succ_apply']
    exact winv_step w hw _ ih

theorem iterate_current (s : Primes) (k : ℕ) :
    (populate_next_batch^[k] s).batch.current = s.batch.current + k := by
  induction k with
  | zero => rfl
  | succ k ih =>
    rw [Function.iterate_succ_apply', populate_next_batch_batch, ih]
    show s.batch.current + k + 1 = s.batch.current + (k + 1)
    omega

/-! ### Correctness of the segment sieve (`populate_next_batch`) -/

/-- The start value `p * mulFactor off p` marks exactly the multiples of `p`
at or above `off` (in the exact arithmetic range). -/
theorem mark_window (off w p j : ℕ) (hp2 : 1 ≤ p) (hp : p < 2 ^ 53)
    (hoff1 : 1 ≤ off) (hoff : off < 2 ^ 53) :
    ((∃ i, p * mulFactor off p + i * p = off + j ∧ off + j < off + w) ↔
      (p ∣ (off + j) ∧ j < w)) := by
  obtain ⟨hst1, hst2⟩ := mulFactor_spec off p hoff1 hoff (by omega) hp
  constructor
  · rintro ⟨i, hi, hlt⟩
    refine ⟨?_, by omega⟩
    have h1 : p ∣ p * mulFactor off p := dvd_mul_right _ _
    have h2 : p ∣ i * p := dvd_mul_left _ _
    rw [← hi]
    exact dvd_add h1 h2
  · rintro ⟨hdvd, hjw⟩
    obtain ⟨q1, hq1⟩ := hdvd
    have hst_le : p * mulFactor off p ≤ off + j := by
      by_contra hcon
      push_neg at hcon
      have hq1_lt : q1 < mulFactor off p := by
        by_contra hq
        push_neg at hq
        have : p * mulFactor off p ≤ p * q1 := Nat.mul_le_mul_left _ hq
        omega
      have : p * (q1 + 1) ≤ p * mulFactor off p := Nat.mul_le_mul_left _ (by omega)
      have hexp : p * (q1 + 1) = p * q1 + p := by ring
      omega
    have hm_le : mulFactor off p ≤ q1 := by
      by_contra hq
      push_neg at hq
      have : p * (q1 + 1) ≤ p * mulFactor off p := Nat.mul_le_mul_left _ (by omega)
      have hexp : p * (q1 + 1) = p * q1 + p := by ring
      omega
    refine ⟨q1 - mulFactor off p, ?_, by omega⟩
    have hexp : (q1 - mulFactor off p) * p + mulFactor off p * p = q1 * p := by
      have h2 : q1 - mulFactor off p + mulFactor off p = q1 := by omega
      calc (q1 - mulFactor off p) * p + mulFactor off p * p
          = ((q1 - mulFactor off p) + mulFactor off p) * p := by ring
        _ = q1 * p := by rw [h2]
    have hc1 : mulFactor off p * p = p * mulFactor off p := by ring
    have hc2 : q1 * p = p * q1 := by ring
    omega

/-- Effect of the whole marking pass of `populate_next_batch`: position `j`
ends cleared exactly when some stored prime divides `off + j` (within the
window), or it started cleared. -/
theorem fold_mark_false_iff (off w : ℕ) (hoff1 : 1 ≤ off) (hoff : off < 2 ^ 53) :
    ∀ (ps : List ℕ), (∀ p ∈ ps, 2 ≤ p ∧ p < 2 ^ 53) →
    ∀ (sl : List Bool), off + w ≤ off + sl.length → ∀ (j : ℕ),
      ((ps.foldl (fun sl p => markFrom sl off (off + w) p (p * mulFactor off p))
        sl).getD j false = false ↔
        (∃ p ∈ ps, p ∣ (off + j) ∧ j < w) ∨ sl.getD j false = false) := by
  intro ps
  induction ps with
  | nil =>
    intro _ sl _ j
    simp only [List.foldl_nil, List.not_mem_nil]
    constructor
    · exact fun h => Or.inr h
    · rintro (⟨p, hp, -⟩ | h)
      · exact absurd hp (by simp)
      · exact h
  | cons p rest ih =>
    intro hps sl hlen j
    obtain ⟨hp2, hplt⟩ := hps p (by simp)
    rw [List.foldl_cons]
    rw [ih (fun q hq => hps q (by simp [hq])) _
      (by rw [markFrom_length]; exact hlen) j]
    rw [markFrom_false_iff' sl off (off + w) p (p * mulFactor off p) (by omega)
      (mulFactor_spec off p hoff1 hoff (by omega) hplt).1 hlen j]
    rw [mark_window off w p j (by omega) hplt hoff1 hoff]
    constructor
    · rintro (⟨q, hq, hdvd, hjw⟩ | (h | h))
      · exact Or.inl ⟨q, by simp [hq], hdvd, hjw⟩
      · exact Or.inl ⟨p, by simp, h⟩
      · exact Or.inr h
    · rintro (⟨q, hq, hdvd, hjw⟩ | h)
      · rcases List.mem_cons.mp hq with rfl | hq'
        · exact Or.inr (Or.inl ⟨hdvd, hjw⟩)
        · exact Or.inl ⟨q, hq', hdvd, hjw⟩
      · exact Or.inr (Or.inr h)

/-- A value in `[off, off * off)` is prime exactly when no prime below
`off` divides it. -/
theorem prime_iff_no_divisor_below (off v : ℕ) (h2 : 2 ≤ off) (hv1 : off ≤ v)
    (hv2 : v < off * off) :
    (¬ ∃ p, p < off ∧ Nat.Prime p ∧ p ∣ v) ↔ Nat.Prime v := by
  constructor
  · intro h
    by_contra hnp
    have hv2' : 2 ≤ v := by omega
    have hmf_prime : (Nat.minFac v).Prime := Nat.minFac_prime (by omega)
    have hmf_dvd : Nat.minFac v ∣ v := Nat.minFac_dvd v
    have hmf_sq : Nat.minFac v * Nat.minFac v ≤ v := by
      have := Nat.minFac_sq_le_self (by omega) hnp
      calc Nat.minFac v * Nat.minFac v = Nat.minFac v ^ 2 := by ring
        _ ≤ v := this
    have hmf_lt : Nat.minFac v < off := by
      by_contra hcon
      push_neg at hcon
      have : off * off ≤ Nat.minFac v * Nat.minFac v :=
        Nat.mul_le_mul hcon hcon
      omega
    exact h ⟨Nat.minFac v, hmf_lt, hmf_prime, hmf_dvd⟩
  · intro hvp
    rintro ⟨p, hplt, hpp, hpdvd⟩
    rcases hvp.eq_one_or_self_of_dvd p hpdvd with h1 | h1
    · exact absurd h1 hpp.ne_one
    · omega

/-- One batch step preserves full functional correctness of the Prime
Store (exact-range version). -/
theorem strong_step (w : ℕ) (hw : 2 ≤ w) (s : Primes) (k : ℕ)
    (hW : WInv w s) (hcur : s.batch.current = k)
    (hord : s.primes_ordered = primeList ((k + 1) * w))
    (hbound : (k + 2) * w ≤ 2 ^ 53) :
    (populate_next_batch s).primes_ordered = primeList ((k + 2) * w) := by
  obtain ⟨hsize, hoffb, hlen, hsorted, hbounds, hfound⟩ := hW
  have hout := populate_next_batch_ordered s
  rw [hcur, hsize] at hout
  set off := (k + 1) * w with hoffdef
  have hoff1 : 1 ≤ off := by
    have h1 : 1 * w ≤ (k + 1) * w := Nat.mul_le_mul_right _ (by omega)
    omega
  have hoff2 : 2 ≤ off := by
    have h1 : 1 * w ≤ (k + 1) * w := Nat.mul_le_mul_right _ (by omega)
    omega
  have hk1 : (k + 1) * w + w = (k + 2) * w := by ring
  have hoff_lt : off < 2 ^ 53 := by omega
  set slice0 := s.inner_slice.map (fun _ : Bool => true) with hsl0
  have hsl0len : slice0.length = w := by rw [hsl0, List.length_map, hlen]
  set slice' := s.primes_ordered.foldl
      (fun sl p => markFrom sl off (off + w) p (p * mulFactor off p)) slice0 with hsl'
  have hfold := fold_mark_false_iff off w hoff1 hoff_lt s.primes_ordered
    (fun p hp => by
      rw [hord] at hp
      obtain ⟨hlt, hpp⟩ := (primeList_mem _ p).mp hp
      exact ⟨hpp.two_le, by omega⟩)
    slice0 (by omega)
  have hslice'_len : slice'.length = w := by
    rw [hsl', foldl_markFrom_length, hsl0len]
  have hgetD : ∀ j, j < w → (slice'.getD j false = decide (Nat.Prime (off + j))) := by
    intro j hjw
    have h := hfold j
    rw [← hsl'] at h
    have hbase : slice0.getD j false = true := by
      rw [hsl0, getD_map_const, if_pos (by rw [hlen]; exact hjw)]
    have hchar : slice'.getD j false = false ↔ ∃ p, p < off ∧ Nat.Prime p ∧ p ∣ (off + j) := by
      rw [h]
      constructor
      · rintro (⟨p, hp, hdvd, -⟩ | hfalse)
        · rw [hord] at hp
          obtain ⟨hlt, hpp⟩ := (primeList_mem _ p).mp hp
          exact ⟨p, hlt, hpp, hdvd⟩
        · rw [hbase] at hfalse
          exact absurd hfalse (by simp)
      · rintro ⟨p, hlt, hpp, hdvd⟩
        exact Or.inl ⟨p, by rw [hord]; exact (primeList_mem _ p).mpr ⟨hlt, hpp⟩, hdvd, hjw⟩
    have hv2 : off + j < off * off := by
      have hsq : (k + 2) * w ≤ off * off := by
        rw [hoffdef]
        have h1 : (k + 2) * w ≤ (k + 1) * w * 2 := by
          have h2 : k + 2 ≤ (k + 1) * 2 := by omega
          calc (k + 2) * w ≤ (k + 1) * 2 * w := Nat.mul_le_mul_right _ h2
            _ = (k + 1) * w * 2 := by ring
        have h3 : (k + 1) * w * 2 ≤ (k + 1) * w * ((k + 1) * w) := by
          refine Nat.mul_le_mul_left _ ?_
          have h4 : 1 * w ≤ (k + 1) * w := Nat.mul_le_mul_right _ (by omega)
          omega
        omega
      omega
    have hprime : slice'.getD j false = true ↔ Nat.Prime (off + j) := by
      rw [← prime_iff_no_divisor_below off (off + j) hoff2 (by omega) hv2]
      constructor
      · intro htrue hex
        have : slice'.getD j false = false := hchar.mpr hex
        rw [htrue] at this
        exact absurd this (by simp)
      · intro hnone
        cases hval : slice'.getD j false
        · exact absurd (hchar.mp hval) hnone
        · rfl
    cases hval : slice'.getD j false
    · rw [hval] at hprime
      have : ¬ Nat.Prime (off + j) := fun hp => by
        have := hprime.mpr hp
        exact absurd this (by simp)
      simp [this]
    · rw [hval] at hprime
      simp [hprime.mp rfl]
  rw [hout, hord]
  rw [collectPrimes_eq, hslice'_len]
  have hfilter : (List.range w).filter (fun j => slice'.getD j false) =
      (List.range w).filter (fun j => decide (Nat.Prime (off + j))) :=
    List.filter_congr (fun j hj => hgetD j (List.mem_range.mp hj))
  rw [hfilter, hoffdef]
  rw [← hk1, primeList_append]
  congr 1
  apply List.map_congr_left
  intro a _
  omega

/-- The Prime Store after `k` batch computations holds exactly the primes
below `(k + 1) * w`, as long as the values stay in the `f64`-exact range. -/
theorem strong_inv (w : ℕ) (hw : 2 ≤ w) (s₀ : Primes)
    (h0 : with_batch_size w = some s₀) (k : ℕ) (hk : (k + 1) * w ≤ 2 ^ 53) :
    (populate_next_batch^[k] s₀).primes_ordered = primeList ((k + 1) * w) := by
  induction k with
  | zero =>
    have h0' := h0
    rw [with_batch_size_eq w hw] at h0'
    injection h0' with h0'
    subst h0'
    show primeList w = primeList ((0 + 1) * w)
    congr 1
    omega
  | succ k ih =>
    have hk' : (k + 1) * w ≤ 2 ^ 53 := by
      have h1 : (k + 1) * w ≤ (k + 1 + 1) * w := Nat.mul_le_mul_right _ (by omega)
      omega
    have hcur : (populate_next_batch^[k] s₀).batch.current = k := by
      rw [iterate_current]
      have hb0 : s₀.batch.current = 0 := by
        have h0' := h0
        rw [with_batch_size_eq w hw] at h0'
        injection h0' with h0'
        rw [← h0']
      omega
    have hbound2 : (k + 2) * w ≤ 2 ^ 53 := by
      have hexp : (k + 2) * w = (k + 1 + 1) * w := by ring
      omega
    have hstep := strong_step w hw (populate_next_batch^[k] s₀) k
      (winv_iterate w hw s₀ h0 k) hcur (ih hk') hbound2
    rw [Function.iterate_succ_apply', hstep]

theorem strong_inv_found (w : ℕ) (hw : 2 ≤ w) (s₀ : Primes)
    (h0 : with_batch_size w = some s₀) (k : ℕ) (hk : (k + 1) * w ≤ 2 ^ 53) :
    (populate_next_batch^[k] s₀).primes_found = (primeList ((k + 1) * w)).toFinset := by
  have hW := winv_iterate w hw s₀ h0 k
  rw [hW.2.2.2.2.2, strong_inv w hw s₀ h0 k hk]

/-! ### The `is_prime` loop -/

theorem is_primeGo_no_loop (n : ℕ) (fuel : ℕ) (s : Primes)
    (h : ¬ (s.batch.current + 1) * BATCH_SIZE < n) :
    is_primeGo n fuel s = (s, decide (n ∈ s.primes_found)) := by
  cases fuel with
  | zero => rfl
  | succ fuel => simp only [is_primeGo]; rw [if_neg h]

theorem is_primeGo_state (n : ℕ) : ∀ (fuel : ℕ) (s : Primes),
    (∃ j, (is_primeGo n fuel s).1 = populate_next_batch^[j] s) ∧
    (is_primeGo n fuel s).2 = decide (n ∈ (is_primeGo n fuel s).1.primes_found) := by
  intro fuel
  induction fuel with
  | zero => intro s; exact ⟨⟨0, rfl⟩, rfl⟩
  | succ fuel ih =>
    intro s
    simp only [is_primeGo]
    split
    · obtain ⟨⟨j, hj⟩, hb⟩ := ih (populate_next_batch s)
      refine ⟨⟨j + 1, ?_⟩, hb⟩
      rw [hj, Function.iterate_succ_apply]
    · exact ⟨⟨0, rfl⟩, rfl⟩

theorem is_primeGo_guard (n : ℕ) : ∀ (fuel : ℕ) (s : Primes),
    n ≤ (s.batch.current + 1 + fuel) * BATCH_SIZE →
    ¬ ((is_primeGo n fuel s).1.batch.current + 1) * BATCH_SIZE < n := by
  intro fuel
  induction fuel with
  | zero =>
    intro s h
    simp only [Nat.add_zero] at h
    simp only [is_primeGo]
    omega
  | succ fuel ih =>
    intro s h
    simp only [is_primeGo]
    split
    · refine ih (populate_next_batch s) ?_
      rw [populate_next_batch_batch]
      calc n ≤ (s.batch.current + 1 + (fuel + 1)) * BATCH_SIZE := h
        _ = (s.batch.current + 1 + 1 + fuel) * BATCH_SIZE := by ring
    · next hguard => simpa using hguard

theorem is_prime_state (s : Primes) (n : ℕ) :
    ∃ j, (is_prime s n).1 = populate_next_batch^[j] s :=
  (is_primeGo_state n n s).1

theorem is_prime_bool (s : Primes) (n : ℕ) :
    (is_prime s n).2 = decide (n ∈ (is_prime s n).1.primes_found) :=
  (is_primeGo_state n n s).2

theorem is_prime_final_guard (s : Primes) (n : ℕ) :
    n ≤ ((is_prime s n).1.batch.current + 1) * BATCH_SIZE := by
  have h : n ≤ (s.batch.current + 1 + n) * BATCH_SIZE := by
    calc n = n * 1 := by ring
      _ ≤ (s.batch.current + 1 + n) * BATCH_SIZE :=
        Nat.mul_le_mul (by omega) (by norm_num [BATCH_SIZE, MB])
  have hg := is_primeGo_guard n n s h
  show n ≤ ((is_primeGo n n s).1.batch.current + 1) * BATCH_SIZE
  omega

/-! ### Further structural lemmas -/

theorem iterate_size (s : Primes) (k : ℕ) :
    (populate_next_batch^[k] s).batch.size = s.batch.size := by
  induction k with
  | zero => rfl
  | succ k ih =>
    rw [Function.iterate_succ_apply', populate_next_batch_batch]
    exact ih

/-- Whatever the fuel, a successful `next` advances the cursor by exactly
one, only ever extends the store by whole batches, and yields the stored
value at the old cursor position. -/
theorem iterNext_shape : ∀ (fuel : ℕ) (it it' : PrimesIterator) (v : ℕ),
    PrimesIterator.next fuel it = some (it', v) →
    it'.current = it.current + 1 ∧
    (∃ j, it'.primes = populate_next_batch^[j] it.primes) ∧
    ∃ h : it.current < it'.primes.primes_ordered.length,
      v = it'.primes.primes_ordered.get ⟨it.current, h⟩ := by
  intro fuel
  induction fuel with
  | zero =>
    intro it it' v h
    rw [PrimesIterator.next] at h
    split at h
    · injection h with h
      injection h with h1 h2
      subst h1
      refine ⟨rfl, ⟨0, rfl⟩, by assumption, h2.symm⟩
    · exact absurd h (by simp)
  | succ fuel ih =>
    intro it it' v h
    rw [PrimesIterator.next] at h
    split at h
    · injection h with h
      injection h with h1 h2
      subst h1
      refine ⟨rfl, ⟨0, rfl⟩, by assumption, h2.symm⟩
    · obtain ⟨hcur, ⟨j, hj⟩, hlt, hv⟩ := ih _ _ _ h
      refine ⟨hcur, ⟨j + 1, ?_⟩, hlt, hv⟩
      rw [hj, Function.iterate_succ_apply]

/-- With enough fuel (any later batch whose prime count exceeds the cursor,
within the exact range), `next` succeeds. -/
theorem iterNext_some (w : ℕ) (hw : 2 ≤ w) (s₀ : Primes)
    (h0 : with_batch_size w = some s₀) :
    ∀ (d k cur : ℕ), (k + d + 1) * w ≤ 2 ^ 53 →
      cur < (primeList ((k + d + 1) * w)).length →
      ∃ it' v, PrimesIterator.next d ⟨populate_next_batch^[k] s₀, cur⟩ = some (it', v) := by
  intro d
  induction d with
  | zero =>
    intro k cur hK hcur
    have hord := strong_inv w hw s₀ h0 k (by
      have hexp : (k + 0 + 1) * w = (k + 1) * w := by ring
      omega)
    rw [PrimesIterator.next]
    have hlen : cur < (populate_next_batch^[k] s₀).primes_ordered.length := by
      show cur < (populate_next_batch^[k] s₀).primes_ordered.length
      rw [hord]
      have hexp : (k + 0 + 1) * w = (k + 1) * w := by ring
      rw [hexp] at hcur
      exact hcur
    rw [dif_pos hlen]
    exact ⟨_, _, rfl⟩
  | succ d ih =>
    intro k cur hK hcur
    rw [PrimesIterator.next]
    by_cases hlen : cur < (populate_next_batch^[k] s₀).primes_ordered.length
    · rw [dif_pos hlen]
      exact ⟨_, _, rfl⟩
    · rw [dif_neg hlen]
      have hnext : (populate_next_batch^[k + 1]) s₀ =
          populate_next_batch ((populate_next_batch^[k]) s₀) :=
        Function.iterate_succ_apply' _ _ _
      show ∃ it' v, PrimesIterator.next d
        ⟨populate_next_batch ((populate_next_batch^[k]) s₀), cur⟩ = some (it', v)
      rw [← hnext]
      refine ih (k + 1) cur ?_ ?_
      · have hexp : (k + 1 + d + 1) * w = (k + (d + 1) + 1) * w := by ring
        omega
      · have hexp : (k + 1 + d + 1) * w = (k + (d + 1) + 1) * w := by ring
        rw [hexp]
        exact hcur

/-- Each batch step appends a (possibly empty) block of values that are all
strictly greater than everything already stored. -/
theorem pnb_append (w : ℕ) (hw : 2 ≤ w) (s : Primes) (h : WInv w s) :
    ∃ t, (populate_next_batch s).primes_ordered = s.primes_ordered ++ t ∧
      ∀ x ∈ s.primes_ordered, ∀ y ∈ t, x < y := by
  obtain ⟨hsize, hoff, hlen, hsorted, hbounds, hfound⟩ := h
  have hord := populate_next_batch_ordered s
  refine ⟨_, hord, ?_⟩
  intro x hx y hy
  have hx' := (hbounds x hx).2
  rw [collectPrimes_eq] at hy
  obtain ⟨j, hj, rfl⟩ := List.mem_map.mp hy
  rw [hsize]
  omega

theorem primeList_take5 (N : ℕ) (hN : 12 ≤ N) :
    (primeList N).take 5 = [2, 3, 5, 7, 11] := by
  have hsplit : N = 12 + (N - 12) := by omega
  rw [hsplit, primeList_append]
  have h12 : primeList 12 = [2, 3, 5, 7, 11] := by decide
  rw [h12]
  exact List.take_left' rfl

/-! ### The claims -/

/-- Claim C1 (amended): the batching loop of `is_prime` is governed by the
fixed global constant `BATCH_SIZE`, not by the instance's configured width:
after `is_prime n` returns, `n ≤ (current + 1) * BATCH_SIZE` holds, the
configured width is unchanged, and the result is the membership bit of the
store; coverage of `n` in terms of the configured width follows only when
that width equals the default `BATCH_SIZE`. -/
theorem claim_C1 (s : Primes) (n : ℕ) :
    n ≤ ((is_prime s n).1.batch.current + 1) * BATCH_SIZE ∧
    (is_prime s n).1.batch.size = s.batch.size ∧
    (is_prime s n).2 = decide (n ∈ (is_prime s n).1.primes_found) := by
  refine ⟨is_prime_final_guard s n, ?_, is_prime_bool s n⟩
  obtain ⟨j, hj⟩ := is_prime_state s n
  rw [hj, iterate_size]

/-- Claim C1 counterexample: with configured width 3, `is_prime 5` computes
no batch at all (its guard compares `5` against `BATCH_SIZE`, not against
the configured width 3), so on return the sieved range
`[0, (current + 1) * width)` does not cover `n = 5`, contradicting the
claim that the loop guard uses the configured width. -/
theorem claim_C1_cex :
    with_batch_size 3 = some initW3 ∧
    ((is_prime initW3 5).1.batch.current + 1) * (is_prime initW3 5).1.batch.size < 5 :=
  ⟨by decide, by decide⟩

/-- Claim C2 (amended): no configuration fault is ever raised — `is_prime`
always returns a plain boolean — and for a query within the first batch of
the default width, that boolean is `true` exactly for primes inside the
range the instance has actually sieved (`n < (k + 1) * w`); for a prime
beyond that range it is a silently wrong `false`. -/
theorem claim_C2 (w : ℕ) (s₀ : Primes) (k n : ℕ) (hw : 2 ≤ w)
    (h0 : with_batch_size w = some s₀) (hk : (k + 1) * w ≤ 2 ^ 53)
    (hn : n ≤ BATCH_SIZE) :
    ((is_prime (populate_next_batch^[k] s₀) n).2 = true ↔
      (Nat.Prime n ∧ n < (k + 1) * w)) := by
  set S := populate_next_batch^[k] s₀ with hS
  have hguard : ¬ (S.batch.current + 1) * BATCH_SIZE < n := by
    have h1 : BATCH_SIZE ≤ (S.batch.current + 1) * BATCH_SIZE :=
      Nat.le_mul_of_pos_left _ (by omega)
    omega
  have hip : is_prime S n = (S, decide (n ∈ S.primes_found)) := by
    show is_primeGo n n S = _
    exact is_primeGo_no_loop n n S hguard
  rw [hip]
  show decide (n ∈ S.primes_found) = true ↔ _
  rw [decide_eq_true_eq, hS, strong_inv_found w hw s₀ h0 k hk,
    List.mem_toFinset, primeList_mem]
  exact and_comm

/-- Claim C2 witness: at width 2 after construction, `is_prime 3` answers
`false` and indeed `3` is not below the covered bound 2. -/
theorem claim_C2_witness :
    (with_batch_size 2 = some initW2 ∧ (3 : ℕ) ≤ BATCH_SIZE) ∧
    ((is_prime (populate_next_batch^[0] initW2) 3).2 = true ↔
      (Nat.Prime 3 ∧ 3 < (0 + 1) * 2)) :=
  ⟨⟨by decide, by decide⟩,
    claim_C2 2 initW2 0 3 (by decide) (by decide) (by decide) (by decide)⟩

/-- Claim C2 counterexample: width 2 violates the correctness invariant
(the store after batch 0 misses the prime `2 ≤ √4`), and the membership
query `is_prime 3` silently returns the wrong boolean `false` for the
prime 3 — no configuration fault is reported. -/
theorem claim_C2_cex :
    with_batch_size 2 = some initW2 ∧
    (Nat.Prime 2 ∧ 2 * 2 ≤ (0 + 1 + 1) * 2 ∧ 2 ∉ initW2.primes_found) ∧
    Nat.Prime 3 ∧ (is_prime initW2 3).2 = false := by decide

/-- Claim C3 (confirmed): in `populate_next_batch`, for every stored prime
`p` and batch offset (in the `f64`-exact range, which covers every state
the program can actually reach), the computed first multiple is exactly
`ceil(offset / p) * p` over the integers — the least multiple of `p` that
is `≥ offset` — and the marking pass clears exactly the multiples of `p`
inside `[offset, offset + width)`, stepping by `p` up to the window's
upper bound. -/
theorem claim_C3 (sl : List Bool) (offset size p : ℕ)
    (hp1 : 1 ≤ p) (hp : p < 2 ^ 53) (ho1 : 1 ≤ offset) (ho : offset < 2 ^ 53)
    (hsl : sl.length = size) :
    mulFactor offset p = (offset + p - 1) / p ∧
    offset ≤ p * mulFactor offset p ∧
    p * mulFactor offset p < offset + p ∧
    ∀ j, j < size →
      ((markFrom sl offset (offset + size) p (p * mulFactor offset p)).getD j false = false ↔
        (p ∣ (offset + j) ∨ sl.getD j false = false)) := by
  obtain ⟨h1, h2⟩ := mulFactor_spec offset p ho1 ho hp1 hp
  refine ⟨mulFactor_eq offset p ho1 ho hp1 hp, h1, h2, ?_⟩
  intro j hj
  rw [markFrom_false_iff' sl offset (offset + size) p (p * mulFactor offset p)
    (by omega) h1 (by omega) j]
  rw [mark_window offset size p j hp1 hp ho1 ho]
  constructor
  · rintro (⟨hd, -⟩ | h)
    · exact Or.inl hd
    · exact Or.inr h
  · rintro (hd | h)
    · exact Or.inl ⟨hd, hj⟩
    · exact Or.inr h

/-- Claim C3 witness: offset 4, width 4, prime 2. -/
theorem claim_C3_witness :
    ((1 : ℕ) ≤ 2 ∧ ([true, true, true, true] : List Bool).length = 4) ∧
    (mulFactor 4 2 = (4 + 2 - 1) / 2 ∧
      4 ≤ 2 * mulFactor 4 2 ∧
      2 * mulFactor 4 2 < 4 + 2 ∧
      ∀ j, j < 4 →
        ((markFrom [true, true, true, true] 4 (4 + 4) 2
            (2 * mulFactor 4 2)).getD j false = false ↔
          (2 ∣ (4 + j) ∨ ([true, true, true, true] : List Bool).getD j false = false))) :=
  ⟨⟨by decide, by decide⟩,
    claim_C3 [true, true, true, true] 4 4 2 (by decide) (by decide) (by decide)
      (by decide) (by decide)⟩

/-- Claim C4 (confirmed): every value ever recorded into the Prime Store —
by batch 0 and by every later batch, within the `f64`-exact range — is
prime, and with the default width the first five stored values (which the
iterator yields in order) are `2, 3, 5, 7, 11`. -/
theorem claim_C4 (w : ℕ) (s₀ : Primes) (k : ℕ) (hw : 2 ≤ w)
    (h0 : with_batch_size w = some s₀) (hk : (k + 1) * w ≤ 2 ^ 53) :
    (∀ x ∈ (populate_next_batch^[k] s₀).primes_ordered, Nat.Prime x) ∧
    (w = BATCH_SIZE →
      (populate_next_batch^[k] s₀).primes_ordered.take 5 = [2, 3, 5, 7, 11]) := by
  have hord := strong_inv w hw s₀ h0 k hk
  constructor
  · intro x hx
    rw [hord] at hx
    exact ((primeList_mem _ x).mp hx).2
  · intro hB
    rw [hord]
    refine primeList_take5 _ ?_
    have hwB : 12 ≤ w := by rw [hB]; norm_num [BATCH_SIZE, MB]
    have h1 : 1 * w ≤ (k + 1) * w := Nat.mul_le_mul_right _ (by omega)
    omega

/-- Claim C4 witness: width 2 after one extra batch. -/
theorem claim_C4_witness :
    (with_batch_size 2 = some initW2 ∧ ((1 : ℕ) + 1) * 2 ≤ 2 ^ 53) ∧
    ((∀ x ∈ (populate_next_batch^[1] initW2).primes_ordered, Nat.Prime x) ∧
      (2 = BATCH_SIZE →
        (populate_next_batch^[1] initW2).primes_ordered.take 5 = [2, 3, 5, 7, 11])) :=
  ⟨⟨by decide, by decide⟩, claim_C4 2 initW2 1 (by decide) (by decide) (by decide)⟩

/-- Claim C5 (confirmed): on every reachable instance and for `n ∈ {0, 1}`,
`is_prime n` returns `false` (with no arithmetic-range assumption). -/
theorem claim_C5 (w : ℕ) (s₀ : Primes) (k n : ℕ) (hw : 2 ≤ w)
    (h0 : with_batch_size w = some s₀) (hn : n ≤ 1) :
    (is_prime (populate_next_batch^[k] s₀) n).2 = false := by
  set S := populate_next_batch^[k] s₀ with hS
  have hW := winv_iterate w hw s₀ h0 k
  have hguard : ¬ (S.batch.current + 1) * BATCH_SIZE < n := by
    have h1 : 1 * 1 ≤ (S.batch.current + 1) * BATCH_SIZE :=
      Nat.mul_le_mul (by omega) (by norm_num [BATCH_SIZE, MB])
    omega
  have hip : is_prime S n = (S, decide (n ∈ S.primes_found)) := by
    show is_primeGo n n S = _
    exact is_primeGo_no_loop n n S hguard
  rw [hip]
  show decide (n ∈ S.primes_found) = false
  have hnot : n ∉ S.primes_found := by
    rw [hW.2.2.2.2.2, List.mem_toFinset]
    intro hmem
    have h2 := (hW.2.2.2.2.1 n hmem).1
    omega
  simp [hnot]

/-- Claim C5 witness: `is_prime 1` is `false` on the width-2 instance. -/
theorem claim_C5_witness :
    (with_batch_size 2 = some initW2 ∧ (1 : ℕ) ≤ 1) ∧
    (is_prime (populate_next_batch^[0] initW2) 1).2 = false :=
  ⟨⟨by decide, by decide⟩, claim_C5 2 initW2 0 1 (by decide) (by decide) (by decide)⟩

/-- Claim C6 (confirmed): the ordered view is strictly increasing and
duplicate-free in every reachable state; each batch appends a block of
values strictly greater than everything already stored; and the iterator
yields exactly the stored value at its cursor, advancing the cursor by
one. -/
theorem claim_C6 (w : ℕ) (s₀ : Primes) (k : ℕ) (hw : 2 ≤ w)
    (h0 : with_batch_size w = some s₀) :
    List.Sorted (· < ·) (populate_next_batch^[k] s₀).primes_ordered ∧
    (populate_next_batch^[k] s₀).primes_ordered.Nodup ∧
    (∃ t, (populate_next_batch^[k + 1] s₀).primes_ordered =
        (populate_next_batch^[k] s₀).primes_ordered ++ t ∧
      ∀ x ∈ (populate_next_batch^[k] s₀).primes_ordered, ∀ y ∈ t, x < y) ∧
    (∀ fuel cur it' v,
      PrimesIterator.next fuel ⟨populate_next_batch^[k] s₀, cur⟩ = some (it', v) →
      it'.current = cur + 1 ∧
      ∃ h : cur < it'.primes.primes_ordered.length,
        v = it'.primes.primes_ordered.get ⟨cur, h⟩) := by
  have hW := winv_iterate w hw s₀ h0 k
  have hsorted := hW.2.2.2.1
  refine ⟨hsorted, hsorted.nodup, ?_, ?_⟩
  · rw [Function.iterate_succ_apply']
    exact pnb_append w hw _ hW
  · intro fuel cur it' v hnext
    obtain ⟨hcur, -, hlt, hv⟩ := iterNext_shape fuel _ it' v hnext
    exact ⟨hcur, hlt, hv⟩

/-- Claim C6 witness: width 3 at construction. -/
theorem claim_C6_witness :
    ((2 : ℕ) ≤ 3 ∧ with_batch_size 3 = some initW3) ∧
    (List.Sorted (· < ·) (populate_next_batch^[0] initW3).primes_ordered ∧
      (populate_next_batch^[0] initW3).primes_ordered.Nodup ∧
      (∃ t, (populate_next_batch^[0 + 1] initW3).primes_ordered =
          (populate_next_batch^[0] initW3).primes_ordered ++ t ∧
        ∀ x ∈ (populate_next_batch^[0] initW3).primes_ordered, ∀ y ∈ t, x < y) ∧
      (∀ fuel cur it' v,
        PrimesIterator.next fuel ⟨populate_next_batch^[0] initW3, cur⟩ = some (it', v) →
        it'.current = cur + 1 ∧
        ∃ h : cur < it'.primes.primes_ordered.length,
          v = it'.primes.primes_ordered.get ⟨cur, h⟩)) :=
  ⟨⟨by decide, by decide⟩, claim_C6 3 initW3 0 (by decide) (by decide)⟩

/-- Claim C7 (confirmed): after construction and after every batch
computation, the fast-membership view contains exactly the values of the
ordered view — both are populated by the single `save_primes` record
operation. -/
theorem claim_C7 (w : ℕ) (s₀ : Primes) (k : ℕ) (hw : 2 ≤ w)
    (h0 : with_batch_size w = some s₀) :
    (populate_next_batch^[k] s₀).primes_found =
      (populate_next_batch^[k] s₀).primes_ordered.toFinset :=
  (winv_iterate w hw s₀ h0 k).2.2.2.2.2

/-- Claim C7 witness: the two views agree at width 2 after one batch. -/
theorem claim_C7_witness :
    ((2 : ℕ) ≤ 2 ∧ with_batch_size 2 = some initW2) ∧
    (populate_next_batch^[1] initW2).primes_found =
      (populate_next_batch^[1] initW2).primes_ordered.toFinset :=
  ⟨⟨by decide, by decide⟩, claim_C7 2 initW2 1 (by decide) (by decide)⟩

/-- Claim C8 (confirmed): `is_prime` is idempotent — calling it again on
the state returned by the first call gives the same boolean and the very
same state (no further batches, identical store). -/
theorem claim_C8 (s : Primes) (n : ℕ) :
    is_prime ((is_prime s n).1) n = is_prime s n := by
  have hguard : ¬ (((is_prime s n).1).batch.current + 1) * BATCH_SIZE < n :=
    not_lt.mpr (is_prime_final_guard s n)
  have hip : is_prime ((is_prime s n).1) n =
      ((is_prime s n).1, decide (n ∈ ((is_prime s n).1).primes_found)) := by
    show is_primeGo n n _ = _
    exact is_primeGo_no_loop n n _ hguard
  rw [hip]
  exact Prod.ext rfl (is_prime_bool s n).symm

/-- Claim C9 (confirmed): from any reachable state and cursor, the
iterator's `next` returns `Some` value after finitely many batch
computations (here: by batch `K`, for any `K` whose prime count exceeds
the cursor within the `f64`-exact range), advancing the cursor by one —
it never signals exhaustion. -/
theorem claim_C9 (w : ℕ) (s₀ : Primes) (k K cur : ℕ) (hw : 2 ≤ w)
    (h0 : with_batch_size w = some s₀) (hkK : k ≤ K) (hK : (K + 1) * w ≤ 2 ^ 53)
    (hcur : cur < (primeList ((K + 1) * w)).length) :
    ∃ it' v, PrimesIterator.next (K - k) ⟨populate_next_batch^[k] s₀, cur⟩ =
        some (it', v) ∧ it'.current = cur + 1 := by
  obtain ⟨it', v, hsome⟩ := iterNext_some w hw s₀ h0 (K - k) k cur
    (by have h2 : k + (K - k) + 1 = K + 1 := by omega
        rw [h2]
        exact hK)
    (by have h2 : k + (K - k) + 1 = K + 1 := by omega
        rw [h2]
        exact hcur)
  obtain ⟨hcur', -, -⟩ := iterNext_shape (K - k) _ it' v hsome
  exact ⟨it', v, hsome, hcur'⟩

/-- Claim C9 witness: width 2, cursor 0, two batches of headroom. -/
theorem claim_C9_witness :
    ((2 : ℕ) ≤ 2 ∧ with_batch_size 2 = some initW2 ∧ (0 : ℕ) ≤ 2 ∧
      ((2 : ℕ) + 1) * 2 ≤ 2 ^ 53 ∧ 0 < (primeList ((2 + 1) * 2)).length) ∧
    (∃ it' v, PrimesIterator.next (2 - 0) ⟨populate_next_batch^[0] initW2, 0⟩ =
        some (it', v) ∧ it'.current = 0 + 1) :=
  ⟨⟨by decide, by decide, by decide, by decide, by decide⟩,
    claim_C9 2 initW2 0 2 0 (by decide) (by decide) (by decide) (by decide) (by decide)⟩

/-- Claim C10 (confirmed): construction with width 0 or 1 hits the
unconditional writes to marker indices 0 and 1 out of bounds (a Rust
panic, modelled as `none`); for every width `≥ 2` construction succeeds. -/
theorem claim_C10 (w : ℕ) :
    (w < 2 → with_batch_size w = none) ∧
    (2 ≤ w → (with_batch_size w).isSome = true) := by
  constructor
  · intro h
    interval_cases w
    · decide
    · decide
  · intro h
    rw [with_batch_size_eq w h]
    rfl

/-- Claim C10 witness: widths 0 and 1 panic, width 2 constructs. -/
theorem claim_C10_witness :
    with_batch_size 0 = none ∧ with_batch_size 1 = none ∧
      (with_batch_size 2).isSome = true :=
  ⟨(claim_C10 0).1 (by decide), (claim_C10 1).1 (by decide),
    (claim_C10 2).2 (by decide)⟩

end PrimesLib
